import Mathlib

/-!
Verification of the Huffman coding implementation in
`HuffmanAlgorithm.py` and `HuffmanAlgorithm2.py`.

The embedding models the Python code as executable Lean functions:

* `Node` mirrors the Python `Node` class: a `char` field that is `None`
  on internal nodes, a frequency, and two optional children.
* Python exceptions are modelled with `Except Err`; `Err` distinguishes
  the concrete exception the interpreter would raise (`IndexError` from
  indexing an empty list, `KeyError` from a missing dict key,
  `AttributeError` from dereferencing `None`, `TypeError` from
  `None * int`).  `Err.emptyInputError` names the explicit
  precondition-violation error that the design document requires of the
  tree builder; the reference code never raises it.
* `collections.Counter` keeps counts keyed in first-encounter order; it
  is modelled by `counter` over an association list.
* `heapq` is a min-priority queue on `Node.__lt__` (comparison by
  frequency only).  It is modelled by a list kept sorted by frequency:
  `heapify` sorts, `heappush` inserts in order, and popping takes the
  head.  Ties between equal frequencies are broken deterministically by
  insertion position; the design document (§4.2, §9) states that any
  deterministic tie-break is acceptable and that tie-breaks affect only
  which exact code string a symbol receives, never the properties
  verified here.
* Python dicts are modelled by association lists with in-place update
  (`dictSet`), preserving Python's insertion-order semantics.
* Exceptions abort the whole computation in this model.  (In Python a
  caller could still observe earlier in-place mutations of a shared
  dict after an exception; no claim depends on that, since every tree
  produced by `build_huffman_tree` is full and `generate_codes` and
  `decode_text` never raise on such trees.)
-/

set_option maxHeartbeats 1000000

/-- The Python exceptions that the modelled code can raise, plus the
`EmptyInputError` that the design document requires of the tree builder
(`§7`), which the reference code does not implement. -/
inductive Err where
  | indexError
  | keyError
  | attributeError
  | typeError
  | emptyInputError
deriving Repr, DecidableEq

/-- The `Node` class (identical in both Python files): an optional
character (`None` for internal nodes), a frequency, and optional left
and right children (`None` for leaves). -/
inductive Node where
  | mk (char : Option Char) (freq : Nat) (left : Option Node) (right : Option Node)
deriving Repr

/-- Field accessor `node.char`. -/
def Node.char : Node → Option Char
  | .mk c _ _ _ => c

/-- Field accessor `node.freq`. -/
def Node.freq : Node → Nat
  | .mk _ f _ _ => f

/-- Field accessor `node.left`. -/
def Node.left : Node → Option Node
  | .mk _ _ l _ => l

/-- Field accessor `node.right`. -/
def Node.right : Node → Option Node
  | .mk _ _ _ r => r

/-- Python dict used for code tables: keys are `root.char` values
(`Option Char`), values are code strings.  Represented as an
association list in insertion order. -/
abbrev Codes := List (Option Char × String)

/-- Python `d[k] = v`: replace the value in place if the key exists,
otherwise append the new binding. -/
def dictSet (d : Codes) (k : Option Char) (v : String) : Codes :=
  match d with
  | [] => [(k, v)]
  | (k1, v1) :: rest => if k1 = k then (k1, v) :: rest else (k1, v1) :: dictSet rest k v

/-- Python `d[k]` as an optional lookup (`none` models `KeyError`). -/
def dictGet (d : Codes) (k : Option Char) : Option String :=
  match d with
  | [] => none
  | (k1, v1) :: rest => if k1 = k then some v1 else dictGet rest k

/-- The keys of a dict, in insertion order (`list(d.keys())`). -/
def dictKeys (d : Codes) : List (Option Char) :=
  d.map Prod.fst

/-- One step of `collections.Counter`: count one more occurrence of `c`,
keeping keys in first-encounter order. -/
def bumpCount : List (Char × Nat) → Char → List (Char × Nat)
  | [], c => [(c, 1)]
  | (k, v) :: rest, c => if k = c then (k, v + 1) :: rest else (k, v) :: bumpCount rest c

/-- Model of `collections.Counter(text)`: occurrence counts of each
character, keyed in first-encounter order. -/
def counter (text : String) : List (Char × Nat) :=
  text.data.foldl bumpCount []

/-- The ordering `heapq` uses on nodes, via `Node.__lt__`: comparison by
frequency only. -/
def nodeLE (a b : Node) : Prop := a.freq ≤ b.freq

instance : DecidableRel nodeLE := fun a b => Nat.decLe a.freq b.freq

/-- Model of `heapq.heappush`: the heap is a list kept sorted by
frequency, so pushing is ordered insertion.  Ties are broken
deterministically by position (§4.2 of the design document allows any
deterministic tie-break). -/
def heappush (heap : List Node) (item : Node) : List Node :=
  List.orderedInsert nodeLE item heap

/-- Model of `heapq.heapify`: sort the list by frequency. -/
def heapify (l : List Node) : List Node :=
  List.insertionSort nodeLE l

namespace Huffman1

/-- `build_frequency_table` from `HuffmanAlgorithm.py`: `Counter(text)`. -/
def build_frequency_table (text : String) : List (Char × Nat) :=
  counter text

/-- The `while len(heap) > 1` loop of `build_huffman_tree`: pop the two
minimum-frequency nodes (the first two of the sorted heap), merge them
into an internal node with `char = None` and the summed frequency, the
first popped node as left child and the second as right child, and push
the merged node back. -/
def build_huffman_tree_loop (heap : List Node) : List Node :=
  match heap with
  | node1 :: node2 :: rest =>
      build_huffman_tree_loop
        (heappush rest (Node.mk none (node1.freq + node2.freq) (some node1) (some node2)))
  | _ => heap
termination_by heap.length
decreasing_by simp [heappush, List.orderedInsert_length]

/-- `build_huffman_tree` from `HuffmanAlgorithm.py`: heapify one leaf
node per table entry, run the merge loop, and return `heap[0]`.  On an
empty table `heap[0]` raises `IndexError`. -/
def build_huffman_tree (freq_table : List (Char × Nat)) : Except Err Node :=
  let heap := heapify (freq_table.map (fun p => Node.mk (some p.1) p.2 none none))
  match build_huffman_tree_loop heap with
  | [] => Except.error Err.indexError
  | n :: _ => Except.ok n

/-- The recursion of `generate_codes` on an actual node.  At a leaf
(`root.left is None and root.right is None`) write `codes[root.char]`,
using `"0"` when the accumulated code is empty; otherwise recurse left
with bit `"0"`, then right with bit `"1"`.  A recursive call on a
missing child (`None`) raises `AttributeError` at `root.left`. -/
def generate_codes_aux : Node → String → Codes → Except Err Codes
  | .mk c _ none none, current_code, codes =>
      if current_code = "" then Except.ok (dictSet codes c "0")
      else Except.ok (dictSet codes c current_code)
  | .mk _ _ (some l) none, current_code, codes => do
      let _ ← generate_codes_aux l (current_code ++ "0") codes
      Except.error Err.attributeError
  | .mk _ _ none (some _), _, _ =>
      Except.error Err.attributeError
  | .mk _ _ (some l) (some r), current_code, codes => do
      let codes1 ← generate_codes_aux l (current_code ++ "0") codes
      let codes2 ← generate_codes_aux r (current_code ++ "1") codes1
      pure codes2

/-- `generate_codes` from `HuffmanAlgorithm.py`.  The body first runs
`if codes is None: codes = {}` (dead in this file, live in
`HuffmanAlgorithm2.py`), then recurses via `generate_codes_aux`.
Calling it on `None` raises `AttributeError`. -/
def generate_codes (root : Option Node) (current_code : String) (codes : Option Codes) :
    Except Err Codes :=
  let codes0 : Codes := match codes with
    | none => []
    | some d => d
  match root with
  | none => Except.error Err.attributeError
  | some n => generate_codes_aux n current_code codes0

/-- Two successive top-level calls `generate_codes(t1)` then
`generate_codes(t2)` in `HuffmanAlgorithm.py`.  The default argument
`codes={}` is a single dict object allocated once at function
definition time, so the first call receives the (initially empty)
shared dict and the second call receives it as mutated by the first. -/
def generate_codes_two_defaults (t1 t2 : Node) : Except Err (Codes × Codes) := do
  let d1 ← generate_codes (some t1) "" (some [])
  let d2 ← generate_codes (some t2) "" (some d1)
  pure (d1, d2)

/-- `encode_text` from `HuffmanAlgorithm.py`:
`''.join(codes[char] for char in text)`.  A character with no entry in
the dict raises `KeyError`. -/
def encode_text (text : String) (codes : Codes) : Except Err String :=
  text.data.foldlM
    (fun acc ch =>
      match dictGet codes (some ch) with
      | some code => Except.ok (acc ++ code)
      | none => Except.error Err.keyError)
    ""

/-- One iteration of the decode loop in `HuffmanAlgorithm.py`: on `'0'`
move to the left child, on any other character move to the right child
(the `else` branch); dereferencing a missing child raises
`AttributeError`; when the new node carries a character, emit it and
reset to the root. -/
def decode_step (root : Node) (st : String × Node) (bit : Char) : Except Err (String × Node) :=
  match (if bit = '0' then st.2.left else st.2.right) with
  | none => Except.error Err.attributeError
  | some current =>
      match current.char with
      | some c => Except.ok (st.1.push c, root)
      | none => Except.ok (st.1, current)

/-- `decode_text` from `HuffmanAlgorithm.py`.  If the root is a single
leaf, return `root.char * len(encoded_text)` (`None * int` would raise
`TypeError`); otherwise walk the tree bit by bit via `decode_step`. -/
def decode_text (encoded_text : String) (root : Node) : Except Err String :=
  match root.left, root.right with
  | none, none =>
      match root.char with
      | some c => Except.ok (String.mk (List.replicate encoded_text.length c))
      | none => Except.error Err.typeError
  | _, _ => do
      let st ← encoded_text.data.foldlM (decode_step root) ("", root)
      pure st.1

end Huffman1

namespace Huffman2

/-- `build_frequency_table` from `HuffmanAlgorithm2.py`: `Counter(text)`. -/
def build_frequency_table (text : String) : List (Char × Nat) :=
  counter text

/-- The `while len(heap) > 1` loop of `build_huffman_tree` in
`HuffmanAlgorithm2.py` (same text as in `HuffmanAlgorithm.py`). -/
def build_huffman_tree_loop (heap : List Node) : List Node :=
  match heap with
  | node1 :: node2 :: rest =>
      build_huffman_tree_loop
        (heappush rest (Node.mk none (node1.freq + node2.freq) (some node1) (some node2)))
  | _ => heap
termination_by heap.length
decreasing_by simp [heappush, List.orderedInsert_length]

/-- `build_huffman_tree` from `HuffmanAlgorithm2.py`. -/
def build_huffman_tree (freq_table : List (Char × Nat)) : Except Err Node :=
  let heap := heapify (freq_table.map (fun p => Node.mk (some p.1) p.2 none none))
  match build_huffman_tree_loop heap with
  | [] => Except.error Err.indexError
  | n :: _ => Except.ok n

/-- The recursion of `generate_codes` in `HuffmanAlgorithm2.py` on an
actual node (same text as in `HuffmanAlgorithm.py`). -/
def generate_codes_aux : Node → String → Codes → Except Err Codes
  | .mk c _ none none, current_code, codes =>
      if current_code = "" then Except.ok (dictSet codes c "0")
      else Except.ok (dictSet codes c current_code)
  | .mk _ _ (some l) none, current_code, codes => do
      let _ ← generate_codes_aux l (current_code ++ "0") codes
      Except.error Err.attributeError
  | .mk _ _ none (some _), _, _ =>
      Except.error Err.attributeError
  | .mk _ _ (some l) (some r), current_code, codes => do
      let codes1 ← generate_codes_aux l (current_code ++ "0") codes
      let codes2 ← generate_codes_aux r (current_code ++ "1") codes1
      pure codes2

/-- `generate_codes` from `HuffmanAlgorithm2.py`.  Here the default
argument is `codes=None`, so the `if codes is None: codes = {}` guard
allocates a fresh dict on every top-level call. -/
def generate_codes (root : Option Node) (current_code : String) (codes : Option Codes) :
    Except Err Codes :=
  let codes0 : Codes := match codes with
    | none => []
    | some d => d
  match root with
  | none => Except.error Err.attributeError
  | some n => generate_codes_aux n current_code codes0

/-- A top-level call `generate_codes(root)` in `HuffmanAlgorithm2.py`:
the default `codes=None` makes the guard allocate a fresh dict. -/
def generate_codes_top (root : Node) : Except Err Codes :=
  generate_codes (some root) "" none

/-- `encode_text` from `HuffmanAlgorithm2.py` (same text as in
`HuffmanAlgorithm.py`). -/
def encode_text (text : String) (codes : Codes) : Except Err String :=
  text.data.foldlM
    (fun acc ch =>
      match dictGet codes (some ch) with
      | some code => Except.ok (acc ++ code)
      | none => Except.error Err.keyError)
    ""

/-- One iteration of the decode loop in `HuffmanAlgorithm2.py`:
`current = current.left if bit == '0' else current.right`, then emit
and reset when `current.char is not None`. -/
def decode_step (root : Node) (st : String × Node) (bit : Char) : Except Err (String × Node) :=
  match (if bit = '0' then st.2.left else st.2.right) with
  | none => Except.error Err.attributeError
  | some current =>
      match current.char with
      | some c => Except.ok (st.1.push c, root)
      | none => Except.ok (st.1, current)

/-- `decode_text` from `HuffmanAlgorithm2.py` (same text as in
`HuffmanAlgorithm.py`). -/
def decode_text (encoded_text : String) (root : Node) : Except Err String :=
  match root.left, root.right with
  | none, none =>
      match root.char with
      | some c => Except.ok (String.mk (List.replicate encoded_text.length c))
      | none => Except.error Err.typeError
  | _, _ => do
      let st ← encoded_text.data.foldlM (decode_step root) ("", root)
      pure st.1

end Huffman2

/-! ## Proof-side helper definitions -/

/-- The tree shapes that `build_huffman_tree` can produce: leaves carry
a character and no children; internal nodes carry no character, both
children, and the sum of the children's frequencies (the `merged` node
of the builder). -/
inductive WF : Node → Prop where
  | leaf (c : Char) (f : Nat) : WF (Node.mk (some c) f none none)
  | node (l r : Node) : WF l → WF r →
      WF (Node.mk none (Node.freq l + Node.freq r) (some l) (some r))

/-- The `(char, freq)` pairs at the leaves of a tree, left to right. -/
def leafEntries : Node → List (Char × Nat)
  | .mk (some c) f none none => [(c, f)]
  | .mk none _ none none => []
  | .mk _ _ (some l) none => leafEntries l
  | .mk _ _ none (some r) => leafEntries r
  | .mk _ _ (some l) (some r) => leafEntries l ++ leafEntries r

/-- The characters at the leaves of a tree, left to right. -/
def leafChars (t : Node) : List Char :=
  (leafEntries t).map Prod.fst

/-- The root-to-leaf path of the leaf holding character `x`, as a list
of bits (`'0'` = left, `'1'` = right), searching left first. -/
def findCode : Node → Char → Option (List Char)
  | .mk c _ none none, x => if c = some x then some [] else none
  | .mk _ _ (some l) none, x => (findCode l x).map (fun p => '0' :: p)
  | .mk _ _ none (some r), x => (findCode r x).map (fun p => '1' :: p)
  | .mk _ _ (some l) (some r), x =>
      match findCode l x with
      | some p => some ('0' :: p)
      | none => (findCode r x).map (fun p => '1' :: p)

/-- The list of `(char, code)` entries that `generate_codes_aux`
appends for a well-formed tree, in traversal order: each leaf is paired
with the accumulated bit string (or `"0"` when that string is empty). -/
def pathsAux : Node → String → Codes
  | .mk c _ none none, cur => [(c, if cur = "" then "0" else cur)]
  | .mk _ _ (some l) none, cur => pathsAux l (cur ++ "0")
  | .mk _ _ none (some r), cur => pathsAux r (cur ++ "1")
  | .mk _ _ (some l) (some r), cur => pathsAux l (cur ++ "0") ++ pathsAux r (cur ++ "1")

/-- totality of the `heapq` node ordering, for the sorting lemmas. -/
instance : IsTotal Node nodeLE := ⟨fun a b => Nat.le_total a.freq b.freq⟩

/-- Transitivity of the `heapq` node ordering, for the sorting lemmas. -/
instance : IsTrans Node nodeLE := ⟨fun _ _ _ hab hbc => Nat.le_trans hab hbc⟩

/-- Sum of the frequencies stored at the internal nodes of a tree.  For
the builder's trees this equals the frequency-weighted total code
length of the generated table. -/
def internalSum : Node → Nat
  | .mk _ _ none none => 0
  | .mk _ f (some l) none => f + internalSum l
  | .mk _ f none (some r) => f + internalSum r
  | .mk _ f (some l) (some r) => f + internalSum l + internalSum r

/-- The total merge cost of Huffman's greedy strategy on a sorted list
of weights: repeatedly pop the two smallest weights, pay their sum, and
re-insert the sum in order — exactly the cost structure of the
builder's while-loop on the sorted-list heap. -/
def hv : List Nat → Nat
  | a :: b :: rest => a + b + hv (List.orderedInsert (· ≤ ·) (a + b) rest)
  | _ => 0
termination_by l => l.length
decreasing_by simp [List.orderedInsert_length]

/-- The weights of a frequency table, sorted ascending. -/
def sortedWeights (items : List (Char × Nat)) : List Nat :=
  List.insertionSort (· ≤ ·) (items.map Prod.snd)

/-- Exchange two symbols' codes in a code assignment. -/
def swapCode (cf : Char → List Char) (u v : Char) : Char → List Char :=
  fun c => if c = u then cf v else if c = v then cf u else cf c

/-- Remove the entry with the given key from a frequency table. -/
def removeKey (items : List (Char × Nat)) (c : Char) : List (Char × Nat) :=
  items.filter (fun p => p.1 ≠ c)

/-- The frequency-weighted total code length of a code assignment on a
frequency table. -/
def costOf (items : List (Char × Nat)) (cf : Char → List Char) : Nat :=
  (items.map (fun p => p.2 * (cf p.1).length)).sum

/-! ## Theorems -/

/-! ### Dictionary lemmas -/

theorem dictGet_append (a b : Codes) (k : Option Char) :
    dictGet (a ++ b) k = match dictGet a k with
      | some v => some v
      | none => dictGet b k := by
  induction a with
  | nil => simp [dictGet]
  | cons p rest ih =>
      obtain ⟨k1, v1⟩ := p
      by_cases h : k1 = k <;> simp [dictGet, h, ih]

theorem dictGet_eq_none (d : Codes) (k : Option Char) :
    dictGet d k = none ↔ k ∉ d.map Prod.fst := by
  induction d with
  | nil => simp [dictGet]
  | cons p rest ih =>
      obtain ⟨k1, v1⟩ := p
      by_cases h : k1 = k
      · subst h; simp [dictGet]
      · have h2 : ¬ k = k1 := fun hk => h hk.symm
        simp [dictGet, h, ih, h2]

theorem dictSet_notMem (d : Codes) (k : Option Char) (v : String)
    (h : k ∉ d.map Prod.fst) : dictSet d k v = d ++ [(k, v)] := by
  induction d with
  | nil => simp [dictSet]
  | cons p rest ih =>
      obtain ⟨k1, v1⟩ := p
      simp only [List.map_cons, List.mem_cons] at h
      push_neg at h
      have h1 : ¬ k1 = k := fun hk => h.1 hk.symm
      simp [dictSet, h1, ih h.2]

theorem foldl_dictSet_fresh (entries : Codes) : ∀ d : Codes,
    (entries.map Prod.fst).Nodup →
    (∀ k ∈ entries.map Prod.fst, k ∉ d.map Prod.fst) →
    entries.foldl (fun acc p => dictSet acc p.1 p.2) d = d ++ entries := by
  induction entries with
  | nil => simp
  | cons p rest ih =>
      intro d hnodup h
      obtain ⟨k, v⟩ := p
      simp only [List.map_cons, List.nodup_cons] at hnodup
      have hk : k ∉ d.map Prod.fst := h k (by simp)
      rw [List.foldl_cons, dictSet_notMem d k v hk, ih (d ++ [(k, v)]) hnodup.2]
      · simp
      · intro k2 hk2
        simp only [List.map_append, List.mem_append, List.map_cons, List.map_nil,
          List.mem_singleton]
        push_neg
        refine ⟨h k2 (by simp [hk2]), ?_⟩
        intro hkk
        exact hnodup.1 (hkk ▸ hk2)

/-! ### Frequency table lemmas -/

theorem bumpCount_keys (d : List (Char × Nat)) (c : Char) :
    (bumpCount d c).map Prod.fst =
      if c ∈ d.map Prod.fst then d.map Prod.fst else d.map Prod.fst ++ [c] := by
  induction d with
  | nil => simp [bumpCount]
  | cons p rest ih =>
      obtain ⟨k, v⟩ := p
      by_cases h : k = c
      · subst h; simp [bumpCount]
      · simp only [bumpCount, if_neg h, List.map_cons]
        rw [ih]
        by_cases hc : c ∈ rest.map Prod.fst <;>
          simp [hc, h, Ne.symm h]

theorem bumpCount_ne_nil (d : List (Char × Nat)) (c : Char) : bumpCount d c ≠ [] := by
  cases d with
  | nil => simp [bumpCount]
  | cons p rest =>
      obtain ⟨k, v⟩ := p
      by_cases h : k = c <;> simp [bumpCount, h]

theorem foldl_bumpCount_keys_nodup (cs : List Char) : ∀ d : List (Char × Nat),
    (d.map Prod.fst).Nodup → ((cs.foldl bumpCount d).map Prod.fst).Nodup := by
  induction cs with
  | nil => intro d h; simpa using h
  | cons c rest ih =>
      intro d h
      rw [List.foldl_cons]
      apply ih
      rw [bumpCount_keys]
      by_cases hc : c ∈ d.map Prod.fst
      · simpa [hc] using h
      · rw [if_neg hc]
        refine List.Nodup.append h (List.nodup_singleton c) ?_
        intro a ha hb
        simp only [List.mem_singleton] at hb
        subst hb
        exact hc ha

theorem foldl_bumpCount_mem_keys (cs : List Char) : ∀ (d : List (Char × Nat)) (x : Char),
    x ∈ (cs.foldl bumpCount d).map Prod.fst ↔ x ∈ cs ∨ x ∈ d.map Prod.fst := by
  induction cs with
  | nil => simp
  | cons c rest ih =>
      intro d x
      rw [List.foldl_cons, ih]
      rw [bumpCount_keys]
      by_cases hc : c ∈ d.map Prod.fst
      · simp only [if_pos hc, List.mem_cons]
        constructor
        · rintro (h | h) <;> tauto
        · rintro (h | h)
          · rcases h with h | h
            · subst h; tauto
            · tauto
          · tauto
      · simp only [if_neg hc, List.mem_append, List.mem_singleton, List.mem_cons]
        tauto

theorem foldl_bumpCount_ne_nil (cs : List Char) : ∀ d : List (Char × Nat),
    d ≠ [] ∨ cs ≠ [] → cs.foldl bumpCount d ≠ [] := by
  induction cs with
  | nil => intro d h; simpa using h
  | cons c rest ih =>
      intro d _
      rw [List.foldl_cons]
      exact ih _ (Or.inl (bumpCount_ne_nil d c))

theorem counter_keys_nodup (text : String) : ((counter text).map Prod.fst).Nodup :=
  foldl_bumpCount_keys_nodup text.data [] (by simp)

theorem mem_counter_keys (text : String) (x : Char) :
    x ∈ (counter text).map Prod.fst ↔ x ∈ text.data := by
  rw [counter, foldl_bumpCount_mem_keys]; simp

theorem counter_ne_nil (text : String) (h : text ≠ "") : counter text ≠ [] := by
  apply foldl_bumpCount_ne_nil _ _ (Or.inr _)
  intro hdata
  exact h (by ext1; simp [hdata])

/-! ### Builder lemmas -/

theorem heappush_perm (heap : List Node) (item : Node) :
    List.Perm (heappush heap item) (item :: heap) :=
  List.perm_orderedInsert _ _ _

theorem heapify_perm (l : List Node) : List.Perm (heapify l) l :=
  List.perm_insertionSort _ _

theorem leafEntries_merge (n1 n2 : Node) (f : Nat) :
    leafEntries (Node.mk none f (some n1) (some n2)) = leafEntries n1 ++ leafEntries n2 := by
  simp [leafEntries]

theorem build_loop_spec (n : Nat) : ∀ heap : List Node, heap.length = n → heap ≠ [] →
    (∀ t ∈ heap, WF t) →
    ∃ t, Huffman1.build_huffman_tree_loop heap = [t] ∧ WF t ∧
      List.Perm (leafEntries t) (heap.flatMap leafEntries) := by
  induction n using Nat.strong_induction_on with
  | _ n ih =>
    intro heap hlen hne hwf
    match heap with
    | [] => exact absurd rfl hne
    | [t] =>
        refine ⟨t, by simp [Huffman1.build_huffman_tree_loop], hwf t (by simp), ?_⟩
        simp
    | n1 :: n2 :: rest =>
        have hstep : Huffman1.build_huffman_tree_loop (n1 :: n2 :: rest) =
            Huffman1.build_huffman_tree_loop
              (heappush rest (Node.mk none (n1.freq + n2.freq) (some n1) (some n2))) := by
          rw [Huffman1.build_huffman_tree_loop]
        set merged := Node.mk none (n1.freq + n2.freq) (some n1) (some n2) with hm
        have hperm : List.Perm (heappush rest merged) (merged :: rest) := heappush_perm rest merged
        have hlen2 : (heappush rest merged).length = rest.length + 1 := by
          simp [heappush, List.orderedInsert_length]
        have hlt : (heappush rest merged).length < n := by
          rw [hlen2, ← hlen]; simp [List.length_cons]
        have hne2 : heappush rest merged ≠ [] := by
          intro hnil; rw [hnil] at hlen2; simp at hlen2
        have hwf2 : ∀ t ∈ heappush rest merged, WF t := by
          intro t ht
          rcases List.mem_cons.1 ((hperm.mem_iff).1 ht) with h | h
          · subst h
            exact WF.node n1 n2 (hwf n1 (by simp)) (hwf n2 (by simp))
          · exact hwf t (by simp [h])
        obtain ⟨t, hloop, hwft, hentries⟩ :=
          ih _ hlt (heappush rest merged) rfl hne2 hwf2
        refine ⟨t, by rw [hstep, hloop], hwft, ?_⟩
        refine hentries.trans ?_
        refine (hperm.flatMap_right leafEntries).trans ?_
        simp [List.flatMap_cons, hm, leafEntries_merge, List.append_assoc]

theorem wf_two_leaves_node (t : Node) (hwf : WF t) (h2 : 2 ≤ (leafEntries t).length) :
    ∃ (f : Nat) (l r : Node), t = Node.mk none f (some l) (some r) ∧ WF l ∧ WF r := by
  cases hwf with
  | leaf c f => simp [leafEntries] at h2
  | node l r hl hr => exact ⟨_, l, r, rfl, hl, hr⟩

theorem build_ok (ft : List (Char × Nat)) (hne : ft ≠ []) :
    ∃ t, Huffman1.build_huffman_tree ft = Except.ok t ∧ WF t ∧ List.Perm (leafEntries t) ft := by
  set heap := heapify (ft.map (fun p => Node.mk (some p.1) p.2 none none)) with hh
  have hperm : List.Perm heap (ft.map (fun p => Node.mk (some p.1) p.2 none none)) :=
    heapify_perm _
  have hne2 : heap ≠ [] := by
    intro hnil
    have := hperm.length_eq
    rw [hnil] at this
    simp at this
    exact hne (List.eq_nil_of_length_eq_zero (by simp [this]))
  have hwf : ∀ t ∈ heap, WF t := by
    intro t ht
    have := hperm.mem_iff.1 ht
    simp only [List.mem_map] at this
    obtain ⟨p, _, hp⟩ := this
    rw [← hp]
    exact WF.leaf p.1 p.2
  obtain ⟨t, hloop, hwft, hentries⟩ := build_loop_spec heap.length heap rfl hne2 hwf
  refine ⟨t, ?_, hwft, ?_⟩
  · rw [Huffman1.build_huffman_tree, ← hh, hloop]
  · refine hentries.trans ?_
    refine (hperm.flatMap_right leafEntries).trans ?_
    have : ∀ l : List (Char × Nat),
        (l.map (fun p => Node.mk (some p.1) p.2 none none)).flatMap leafEntries = l := by
      intro l
      induction l with
      | nil => simp
      | cons p rest ihl => simp [leafEntries, ihl]
    rw [this]


/-! ### String helpers -/

theorem str_append_bit_ne_empty (s t : String) (h : t.data ≠ []) : s ++ t ≠ "" := by
  intro heq
  have := congrArg String.data heq
  rw [String.data_append] at this
  simp only [List.append_eq_nil] at this
  exact h this.2

theorem str_zero_ne_empty (s : String) : s ++ "0" ≠ "" :=
  str_append_bit_ne_empty s "0" (by decide)

theorem str_one_ne_empty (s : String) : s ++ "1" ≠ "" :=
  str_append_bit_ne_empty s "1" (by decide)

/-! ### Code-generation lemmas -/

theorem bind_ok_eq {α β : Type} (a : α) (f : α → Except Err β) :
    (Bind.bind (Except.ok a) f : Except Err β) = f a := rfl

theorem leafChars_merge (n1 n2 : Node) (f : Nat) :
    leafChars (Node.mk none f (some n1) (some n2)) = leafChars n1 ++ leafChars n2 := by
  simp [leafChars, leafEntries_merge]

theorem findCode_node (f : Nat) (l r : Node) (c : Char) :
    findCode (Node.mk none f (some l) (some r)) c =
      match findCode l c with
      | some p => some ('0' :: p)
      | none => (findCode r c).map (fun p => '1' :: p) := rfl

theorem mk_data (s : String) : String.mk s.data = s := rfl

theorem gen_aux_spec (t : Node) (hwf : WF t) : ∀ (cur : String) (codes : Codes),
    Huffman1.generate_codes_aux t cur codes =
      Except.ok ((pathsAux t cur).foldl (fun acc p => dictSet acc p.1 p.2) codes) := by
  induction hwf with
  | leaf c f =>
      intro cur codes
      by_cases h : cur = "" <;>
        simp [Huffman1.generate_codes_aux, pathsAux, h]
  | node l r hl hr ihl ihr =>
      intro cur codes
      show (do
        let codes1 ← Huffman1.generate_codes_aux l (cur ++ "0") codes
        let codes2 ← Huffman1.generate_codes_aux r (cur ++ "1") codes1
        pure codes2) = _
      rw [ihl, bind_ok_eq, ihr, bind_ok_eq]
      simp only [pathsAux, List.foldl_append]
      rfl

theorem pathsAux_keys (t : Node) (hwf : WF t) : ∀ cur : String,
    (pathsAux t cur).map Prod.fst = (leafChars t).map some := by
  induction hwf with
  | leaf c f => intro cur; simp [pathsAux, leafChars, leafEntries]
  | node l r hl hr ihl ihr =>
      intro cur
      simp [pathsAux, leafChars_merge, ihl, ihr]

theorem findCode_none (t : Node) (hwf : WF t) (c : Char) :
    findCode t c = none ↔ c ∉ leafChars t := by
  induction hwf with
  | leaf c0 f =>
      by_cases h : c0 = c
      · subst h; simp [findCode, leafChars, leafEntries]
      · have h2 : ¬ c = c0 := fun hh => h hh.symm
        simp [findCode, leafChars, leafEntries, h, h2]
  | node l r hl hr ihl ihr =>
      rw [findCode_node, leafChars_merge]
      cases hfl : findCode l c with
      | some p =>
          have hcl : c ∈ leafChars l := by
            by_contra hc
            rw [← ihl, hfl] at hc
            exact Option.some_ne_none p hc
          simp [hcl]
      | none =>
          cases hfr : findCode r c with
          | some p =>
              have hcr : c ∈ leafChars r := by
                by_contra hc
                rw [← ihr, hfr] at hc
                exact Option.some_ne_none p hc
              simp [hcr]
          | none =>
              have hcl : c ∉ leafChars l := ihl.1 hfl
              have hcr : c ∉ leafChars r := ihr.1 hfr
              simp [hcl, hcr]

theorem findCode_isSome (t : Node) (hwf : WF t) (c : Char) (hc : c ∈ leafChars t) :
    ∃ p, findCode t c = some p := by
  cases h : findCode t c with
  | none => exact absurd hc ((findCode_none t hwf c).1 h)
  | some p => exact ⟨p, rfl⟩

theorem findCode_mem (t : Node) (hwf : WF t) (c : Char) (p : List Char)
    (h : findCode t c = some p) : c ∈ leafChars t := by
  by_contra hc
  rw [← findCode_none t hwf c] at hc
  rw [h] at hc
  exact Option.some_ne_none p hc

theorem pathsAux_get (t : Node) (hwf : WF t) : ∀ (cur : String), cur ≠ "" →
    ∀ (c : Char) (p : List Char), findCode t c = some p →
    dictGet (pathsAux t cur) (some c) = some (String.mk (cur.data ++ p)) := by
  induction hwf with
  | leaf c0 f =>
      intro cur hcur c p hfind
      simp only [findCode] at hfind
      by_cases h : (some c0 : Option Char) = some c
      · rw [if_pos h] at hfind
        injection hfind with hp
        subst hp
        injection h with hc
        subst hc
        simp [pathsAux, dictGet, hcur, mk_data]
      · rw [if_neg h] at hfind
        exact absurd hfind (by simp)
  | node l r hl hr ihl ihr =>
      intro cur hcur c p hfind
      simp only [pathsAux]
      rw [dictGet_append]
      rw [findCode_node] at hfind
      cases hfl : findCode l c with
      | some pl =>
          rw [hfl] at hfind
          injection hfind with hp
          subst hp
          rw [ihl (cur ++ "0") (str_zero_ne_empty cur) c pl hfl]
          simp [String.data_append]
      | none =>
          rw [hfl] at hfind
          have hnotl : c ∉ leafChars l := (findCode_none l hl c).1 hfl
          have hgl : dictGet (pathsAux l (cur ++ "0")) (some c) = none := by
            rw [dictGet_eq_none, pathsAux_keys l hl]
            simpa using hnotl
          rw [hgl]
          cases hfr : findCode r c with
          | some pr =>
              rw [hfr] at hfind
              have hp : '1' :: pr = p := by simpa using hfind
              subst hp
              rw [ihr (cur ++ "1") (str_one_ne_empty cur) c pr hfr]
              simp [String.data_append]
          | none =>
              rw [hfr] at hfind
              exact absurd hfind (by simp)

theorem gen_top_spec (t : Node) (hwf : WF t) (hnodup : (leafChars t).Nodup) :
    Huffman1.generate_codes (some t) "" none = Except.ok (pathsAux t "") := by
  show Huffman1.generate_codes_aux t "" [] = _
  rw [gen_aux_spec t hwf "" []]
  rw [foldl_dictSet_fresh (pathsAux t "") []]
  · simp
  · rw [pathsAux_keys t hwf]
    exact hnodup.map (fun a b => by simp)
  · simp

theorem paths_get_root (t : Node) (hwf : WF t) (f : Nat) (l r : Node)
    (hshape : t = Node.mk none f (some l) (some r))
    (c : Char) (p : List Char) (h : findCode t c = some p) :
    dictGet (pathsAux t "") (some c) = some (String.mk p) := by
  subst hshape
  have hwl : WF l := by cases hwf with | node l r h1 h2 => exact h1
  have hwr : WF r := by cases hwf with | node l r h1 h2 => exact h2
  have e0 : ("" ++ "0" : String) = "0" := rfl
  have e1 : ("" ++ "1" : String) = "1" := rfl
  simp only [pathsAux, e0, e1]
  rw [dictGet_append]
  rw [findCode_node] at h
  cases hfl : findCode l c with
  | some pl =>
      rw [hfl] at h
      injection h with hp
      subst hp
      rw [pathsAux_get l hwl "0" (by decide) c pl hfl]
      rfl
  | none =>
      rw [hfl] at h
      have hnotl : c ∉ leafChars l := (findCode_none l hwl c).1 hfl
      have hgl : dictGet (pathsAux l "0") (some c) = none := by
        rw [dictGet_eq_none, pathsAux_keys l hwl]
        simpa using hnotl
      rw [hgl]
      cases hfr : findCode r c with
      | some pr =>
          rw [hfr] at h
          have hp : '1' :: pr = p := by simpa using h
          subst hp
          rw [pathsAux_get r hwr "1" (by decide) c pr hfr]
          rfl
      | none =>
          rw [hfr] at h
          exact absurd h (by simp)

/-! ### Prefix-freedom of root-to-leaf paths -/

theorem findCode_not_prefix (t : Node) (hwf : WF t) (hnodup : (leafChars t).Nodup) :
    ∀ (c1 c2 : Char) (p1 p2 : List Char), c1 ≠ c2 →
      findCode t c1 = some p1 → findCode t c2 = some p2 → ¬ p1 <+: p2 := by
  induction hwf with
  | leaf c0 f =>
      intro c1 c2 p1 p2 hne h1 h2
      simp only [findCode] at h1 h2
      by_cases e1 : (some c0 : Option Char) = some c1
      · by_cases e2 : (some c0 : Option Char) = some c2
        · injection e1 with e1; injection e2 with e2
          exact absurd (e1 ▸ e2) hne
        · rw [if_neg e2] at h2; exact absurd h2 (by simp)
      · rw [if_neg e1] at h1; exact absurd h1 (by simp)
  | node l r hl hr ihl ihr =>
      intro c1 c2 p1 p2 hne h1 h2
      rw [leafChars_merge] at hnodup
      have hnl : (leafChars l).Nodup := hnodup.of_append_left
      have hnr : (leafChars r).Nodup := hnodup.of_append_right
      rw [findCode_node] at h1 h2
      cases hfl1 : findCode l c1 with
      | some q1 =>
          rw [hfl1] at h1
          injection h1 with h1
          subst h1
          cases hfl2 : findCode l c2 with
          | some q2 =>
              rw [hfl2] at h2
              injection h2 with h2
              subst h2
              intro hpre
              rw [List.cons_prefix_cons] at hpre
              exact ihl hnl c1 c2 q1 q2 hne hfl1 hfl2 hpre.2
          | none =>
              rw [hfl2] at h2
              cases hfr2 : findCode r c2 with
              | some q2 =>
                  rw [hfr2] at h2
                  have h2 : '1' :: q2 = p2 := by simpa using h2
                  subst h2
                  intro hpre
                  rw [List.cons_prefix_cons] at hpre
                  exact absurd hpre.1 (by decide)
              | none => rw [hfr2] at h2; exact absurd h2 (by simp)
      | none =>
          rw [hfl1] at h1
          cases hfr1 : findCode r c1 with
          | some q1 =>
              rw [hfr1] at h1
              have h1 : '1' :: q1 = p1 := by simpa using h1
              subst h1
              cases hfl2 : findCode l c2 with
              | some q2 =>
                  rw [hfl2] at h2
                  injection h2 with h2
                  subst h2
                  intro hpre
                  rw [List.cons_prefix_cons] at hpre
                  exact absurd hpre.1 (by decide)
              | none =>
                  rw [hfl2] at h2
                  cases hfr2 : findCode r c2 with
                  | some q2 =>
                      rw [hfr2] at h2
                      have h2 : '1' :: q2 = p2 := by simpa using h2
                      subst h2
                      intro hpre
                      rw [List.cons_prefix_cons] at hpre
                      exact ihr hnr c1 c2 q1 q2 hne hfr1 hfr2 hpre.2
                  | none => rw [hfr2] at h2; exact absurd h2 (by simp)
          | none => rw [hfr1] at h1; exact absurd h1 (by simp)

/-! ### Decode lemmas -/

theorem findCode_node_ne_nil (f : Nat) (l r : Node) (c : Char) (p : List Char)
    (h : findCode (Node.mk none f (some l) (some r)) c = some p) : p ≠ [] := by
  rw [findCode_node] at h
  cases hfl : findCode l c with
  | some q => rw [hfl] at h; injection h with h; rw [← h]; simp
  | none =>
      rw [hfl] at h
      cases hfr : findCode r c with
      | some q =>
          rw [hfr] at h
          have h : '1' :: q = p := by simpa using h
          rw [← h]; simp
      | none => rw [hfr] at h; exact absurd h (by simp)

theorem decode_step_left (root : Node) (acc : String) (f : Nat) (l r : Node) :
    Huffman1.decode_step root (acc, Node.mk none f (some l) (some r)) '0' =
      match l.char with
      | some c => Except.ok (acc.push c, root)
      | none => Except.ok (acc, l) := rfl

theorem decode_step_right (root : Node) (acc : String) (f : Nat) (l r : Node)
    (b : Char) (hb : b ≠ '0') :
    Huffman1.decode_step root (acc, Node.mk none f (some l) (some r)) b =
      match r.char with
      | some c => Except.ok (acc.push c, root)
      | none => Except.ok (acc, r) := by
  simp [Huffman1.decode_step, Node.left, Node.right, hb]

theorem decode_walk (root : Node) (t : Node) (hwf : WF t) :
    ∀ (c : Char) (p : List Char), findCode t c = some p → p ≠ [] →
    ∀ (acc : String) (rest : List Char),
      List.foldlM (Huffman1.decode_step root) (acc, t) (p ++ rest) =
        List.foldlM (Huffman1.decode_step root) (acc.push c, root) rest := by
  induction hwf with
  | leaf c0 f =>
      intro c p hfind hp
      simp only [findCode] at hfind
      by_cases h : (some c0 : Option Char) = some c
      · rw [if_pos h] at hfind
        injection hfind with hfind
        exact absurd hfind.symm hp
      · rw [if_neg h] at hfind
        exact absurd hfind (by simp)
  | node l r hl hr ihl ihr =>
      intro c p hfind hp acc rest
      rw [findCode_node] at hfind
      cases hfl : findCode l c with
      | some pl =>
          rw [hfl] at hfind
          injection hfind with hfind
          subst hfind
          rw [List.cons_append, List.foldlM_cons, decode_step_left]
          cases hl with
          | leaf c0 f0 =>
              simp only [Node.char]
              rw [bind_ok_eq]
              simp only [findCode] at hfl
              by_cases h : (some c0 : Option Char) = some c
              · rw [if_pos h] at hfl
                injection hfl with hfl
                injection h with h
                subst h
                rw [← hfl]
                simp
              · rw [if_neg h] at hfl
                exact absurd hfl (by simp)
          | node l2 r2 hl2 hr2 =>
              simp only [Node.char]
              rw [bind_ok_eq]
              have hpl : pl ≠ [] := findCode_node_ne_nil _ l2 r2 c pl hfl
              exact ihl c pl hfl hpl acc rest
      | none =>
          rw [hfl] at hfind
          cases hfr : findCode r c with
          | some pr =>
              rw [hfr] at hfind
              have hfind : '1' :: pr = p := by simpa using hfind
              subst hfind
              rw [List.cons_append, List.foldlM_cons,
                decode_step_right root acc _ l r '1' (by decide)]
              cases hr with
              | leaf c0 f0 =>
                  simp only [Node.char]
                  rw [bind_ok_eq]
                  simp only [findCode] at hfr
                  by_cases h : (some c0 : Option Char) = some c
                  · rw [if_pos h] at hfr
                    injection hfr with hfr
                    injection h with h
                    subst h
                    rw [← hfr]
                    simp
                  · rw [if_neg h] at hfr
                    exact absurd hfr (by simp)
              | node l2 r2 hl2 hr2 =>
                  simp only [Node.char]
                  rw [bind_ok_eq]
                  have hpr : pr ≠ [] := findCode_node_ne_nil _ l2 r2 c pr hfr
                  exact ihr c pr hfr hpr acc rest
          | none =>
              rw [hfr] at hfind
              exact absurd hfind (by simp)

theorem decode_concat (t : Node) (hwf : WF t) (f : Nat) (l r : Node)
    (hshape : t = Node.mk none f (some l) (some r)) :
    ∀ (cs : List Char), (∀ c ∈ cs, c ∈ leafChars t) → ∀ (acc : String),
      List.foldlM (Huffman1.decode_step t) (acc, t)
          (cs.flatMap (fun c => (findCode t c).getD [])) =
        Except.ok (String.mk (acc.data ++ cs), t) := by
  intro cs
  induction cs with
  | nil =>
      intro _ acc
      simp only [List.flatMap_nil, List.foldlM_nil, List.append_nil, mk_data]
      rfl
  | cons c cs ih =>
      intro hmem acc
      obtain ⟨p, hp⟩ := findCode_isSome t hwf c (hmem c (by simp))
      have hpne : p ≠ [] := by
        subst hshape
        exact findCode_node_ne_nil f l r c p hp
      rw [List.flatMap_cons, hp]
      simp only [Option.getD_some]
      rw [decode_walk t t hwf c p hp hpne acc _]
      rw [ih (fun c2 hc2 => hmem c2 (by simp [hc2])) (acc.push c)]
      simp [String.data_push]

theorem decode_trunc (root : Node) (t : Node) (hwf : WF t) :
    ∀ (c : Char) (p frag : List Char), findCode t c = some p →
      frag ≠ [] → frag <+: p → frag ≠ p →
    ∀ (acc : String), ∃ v : Node,
      List.foldlM (Huffman1.decode_step root) (acc, t) frag = Except.ok (acc, v) := by
  induction hwf with
  | leaf c0 f =>
      intro c p frag hfind hfrag hpre hne
      simp only [findCode] at hfind
      by_cases h : (some c0 : Option Char) = some c
      · rw [if_pos h] at hfind
        injection hfind with hfind
        subst hfind
        exact absurd (List.prefix_nil.mp hpre) hfrag
      · rw [if_neg h] at hfind
        exact absurd hfind (by simp)
  | node l r hl hr ihl ihr =>
      intro c p frag hfind hfrag hpre hne acc
      rw [findCode_node] at hfind
      match frag, hfrag with
      | b :: frag2, _ =>
      cases hfl : findCode l c with
      | some pl =>
          rw [hfl] at hfind
          injection hfind with hfind
          subst hfind
          rw [List.cons_prefix_cons] at hpre
          obtain ⟨hb, hpre2⟩ := hpre
          subst hb
          rw [List.foldlM_cons, decode_step_left]
          cases hl with
          | leaf c0 f0 =>
              simp only [findCode] at hfl
              by_cases h : (some c0 : Option Char) = some c
              · rw [if_pos h] at hfl
                injection hfl with hfl
                subst hfl
                have : frag2 = [] := List.prefix_nil.mp hpre2
                subst this
                exact absurd rfl hne
              · rw [if_neg h] at hfl
                exact absurd hfl (by simp)
          | node l2 r2 hl2 hr2 =>
              simp only [Node.char]
              rw [bind_ok_eq]
              cases frag2 with
              | nil => exact ⟨_, rfl⟩
              | cons b2 frag3 =>
                  have hne2 : b2 :: frag3 ≠ pl := fun he => hne (by rw [he])
                  exact ihl c pl (b2 :: frag3) hfl (by simp) hpre2 hne2 acc
      | none =>
          rw [hfl] at hfind
          cases hfr : findCode r c with
          | some pr =>
              rw [hfr] at hfind
              have hfind : '1' :: pr = p := by simpa using hfind
              subst hfind
              rw [List.cons_prefix_cons] at hpre
              obtain ⟨hb, hpre2⟩ := hpre
              subst hb
              rw [List.foldlM_cons, decode_step_right root acc _ l r '1' (by decide)]
              cases hr with
              | leaf c0 f0 =>
                  simp only [findCode] at hfr
                  by_cases h : (some c0 : Option Char) = some c
                  · rw [if_pos h] at hfr
                    injection hfr with hfr
                    subst hfr
                    have : frag2 = [] := List.prefix_nil.mp hpre2
                    subst this
                    exact absurd rfl hne
                  · rw [if_neg h] at hfr
                    exact absurd hfr (by simp)
              | node l2 r2 hl2 hr2 =>
                  simp only [Node.char]
                  rw [bind_ok_eq]
                  cases frag2 with
                  | nil => exact ⟨_, rfl⟩
                  | cons b2 frag3 =>
                      have hne2 : b2 :: frag3 ≠ pr := fun he => hne (by rw [he])
                      exact ihr c pr (b2 :: frag3) hfr (by simp) hpre2 hne2 acc
          | none =>
              rw [hfr] at hfind
              exact absurd hfind (by simp)

theorem decode_total_aux (root : Node) (hwfr : WF root)
    (hnsr : ∃ (f : Nat) (l r : Node), root = Node.mk none f (some l) (some r)) :
    ∀ (bits : List Char) (t : Node), WF t →
      (∃ (f : Nat) (l r : Node), t = Node.mk none f (some l) (some r)) →
    ∀ (acc : String), ∃ res : String × Node,
      List.foldlM (Huffman1.decode_step root) (acc, t) bits = Except.ok res := by
  intro bits
  induction bits with
  | nil => intro t _ _ acc; exact ⟨(acc, t), rfl⟩
  | cons b bs ih =>
      intro t hwf hns acc
      obtain ⟨f, l, r, rfl⟩ := hns
      have hwl : WF l := by cases hwf with | node l r h1 h2 => exact h1
      have hwr : WF r := by cases hwf with | node l r h1 h2 => exact h2
      by_cases hb : b = '0'
      · subst hb
        rw [List.foldlM_cons, decode_step_left]
        cases hwl with
        | leaf c0 f0 =>
            simp only [Node.char]
            rw [bind_ok_eq]
            exact ih root hwfr hnsr (acc.push c0)
        | node l2 r2 hl2 hr2 =>
            simp only [Node.char]
            rw [bind_ok_eq]
            exact ih _ (WF.node l2 r2 hl2 hr2) ⟨_, l2, r2, rfl⟩ acc
      · rw [List.foldlM_cons, decode_step_right root acc _ l r b hb]
        cases hwr with
        | leaf c0 f0 =>
            simp only [Node.char]
            rw [bind_ok_eq]
            exact ih root hwfr hnsr (acc.push c0)
        | node l2 r2 hl2 hr2 =>
            simp only [Node.char]
            rw [bind_ok_eq]
            exact ih _ (WF.node l2 r2 hl2 hr2) ⟨_, l2, r2, rfl⟩ acc

theorem decode_step_norm (root : Node) (st : String × Node) (b : Char) :
    Huffman1.decode_step root st b =
      Huffman1.decode_step root st (if b = '0' then '0' else '1') := by
  by_cases hb : b = '0' <;> simp [Huffman1.decode_step, hb]

theorem decode_fold_norm (root : Node) : ∀ (bits : List Char) (st : String × Node),
    List.foldlM (Huffman1.decode_step root) st bits =
      List.foldlM (Huffman1.decode_step root) st
        (bits.map (fun b => if b = '0' then '0' else '1')) := by
  intro bits
  induction bits with
  | nil => intro st; simp
  | cons b bs ih =>
      intro st
      rw [List.map_cons, List.foldlM_cons, List.foldlM_cons, ← decode_step_norm]
      cases hstep : Huffman1.decode_step root st b with
      | error e => rfl
      | ok st2 => rw [bind_ok_eq, bind_ok_eq, ih]

/-! ### Encode lemmas -/

theorem bind_err_eq {α β : Type} (e : Err) (f : α → Except Err β) :
    (Bind.bind (Except.error e) f : Except Err β) = Except.error e := rfl

theorem enc_fold_ok (codes : Codes) : ∀ (cs : List Char) (acc : String),
    (∀ c ∈ cs, ∃ v, dictGet codes (some c) = some v) →
    List.foldlM (fun acc ch =>
      match dictGet codes (some ch) with
      | some code => Except.ok (acc ++ code)
      | none => Except.error Err.keyError) acc cs =
    Except.ok (String.mk (acc.data ++
      cs.flatMap (fun c => ((dictGet codes (some c)).getD "").data))) := by
  intro cs
  induction cs with
  | nil =>
      intro acc _
      simp only [List.flatMap_nil, List.foldlM_nil, List.append_nil, mk_data]
      rfl
  | cons c cs ih =>
      intro acc hmem
      obtain ⟨v, hv⟩ := hmem c (by simp)
      rw [List.foldlM_cons, hv]
      show Bind.bind (Except.ok (acc ++ v)) _ = _
      rw [bind_ok_eq, ih (acc ++ v) (fun c2 hc2 => hmem c2 (by simp [hc2]))]
      simp [String.data_append, hv]

theorem enc_fold_err (codes : Codes) : ∀ (cs : List Char) (acc : String),
    (List.foldlM (fun acc ch =>
      match dictGet codes (some ch) with
      | some code => Except.ok (acc ++ code)
      | none => Except.error Err.keyError) acc cs = Except.error Err.keyError) ↔
    ∃ c ∈ cs, dictGet codes (some c) = none := by
  intro cs
  induction cs with
  | nil =>
      intro acc
      constructor
      · intro h
        rw [List.foldlM_nil] at h
        exact Except.noConfusion h
      · rintro ⟨c, hc, _⟩; exact absurd hc (by simp)
  | cons c cs ih =>
      intro acc
      rw [List.foldlM_cons]
      cases hv : dictGet codes (some c) with
      | none =>
          show (Bind.bind (Except.error Err.keyError) _ = _) ↔ _
          rw [bind_err_eq]
          constructor
          · intro _; exact ⟨c, by simp, hv⟩
          · intro _; rfl
      | some v =>
          show (Bind.bind (Except.ok (acc ++ v)) _ = _) ↔ _
          rw [bind_ok_eq, ih]
          constructor
          · rintro ⟨c2, hc2, h2⟩; exact ⟨c2, by simp [hc2], h2⟩
          · rintro ⟨c2, hc2, h2⟩
            rcases List.mem_cons.1 hc2 with h | h
            · subst h; rw [hv] at h2; exact absurd h2 (by simp)
            · exact ⟨c2, h, h2⟩

theorem enc_fold_no_other_err (codes : Codes) : ∀ (cs : List Char) (acc : String) (e : Err),
    List.foldlM (fun acc ch =>
      match dictGet codes (some ch) with
      | some code => Except.ok (acc ++ code)
      | none => Except.error Err.keyError) acc cs = Except.error e →
    e = Err.keyError := by
  intro cs
  induction cs with
  | nil =>
      intro acc e h
      rw [List.foldlM_nil] at h
      exact Except.noConfusion h
  | cons c cs ih =>
      intro acc e
      rw [List.foldlM_cons]
      cases hv : dictGet codes (some c) with
      | none =>
          show Bind.bind (Except.error Err.keyError) _ = _ → _
          rw [bind_err_eq]
          intro h
          injection h with h
          exact h.symm
      | some v =>
          show Bind.bind (Except.ok (acc ++ v)) _ = _ → _
          rw [bind_ok_eq]
          exact ih (acc ++ v) e

theorem str_foldl_append_data : ∀ (l : List String) (s : String),
    (l.foldl (fun r s2 => r ++ s2) s).data = s.data ++ (l.map String.data).flatten := by
  intro l
  induction l with
  | nil => intro s; simp
  | cons a l ih =>
      intro s
      rw [List.foldl_cons, ih, List.map_cons, List.flatten_cons]
      simp [String.data_append]

theorem str_join_data (l : List String) :
    (String.join l).data = (l.map String.data).flatten := by
  show (l.foldl (fun r s2 => r ++ s2) "").data = _
  rw [str_foldl_append_data]
  rfl

theorem str_join_eq (l : List String) :
    String.join l = String.mk ((l.map String.data).flatten) := by
  have := str_join_data l
  cases h : String.join l
  simp_all

/-! ### Further helper lemmas -/

theorem decode_text_node (s : String) (f : Nat) (l r : Node) :
    Huffman1.decode_text s (Node.mk none f (some l) (some r)) = (do
      let st ← s.data.foldlM (Huffman1.decode_step (Node.mk none f (some l) (some r)))
        ("", Node.mk none f (some l) (some r))
      pure st.1) := rfl

theorem decode_text_leaf (s : String) (c : Char) (f : Nat) :
    Huffman1.decode_text s (Node.mk (some c) f none none) =
      Except.ok (String.mk (List.replicate s.length c)) := rfl

theorem dictGet_of_mem (d : Codes) (hnodup : (d.map Prod.fst).Nodup)
    (k : Option Char) (v : String) (h : (k, v) ∈ d) : dictGet d k = some v := by
  induction d with
  | nil => exact absurd h (by simp)
  | cons p rest ih =>
      obtain ⟨k1, v1⟩ := p
      simp only [List.map_cons, List.nodup_cons] at hnodup
      rcases List.mem_cons.1 h with he | hm
      · injection he with he1 he2
        subst he1; subst he2
        simp [dictGet]
      · have hk : k1 ≠ k := by
          intro hkk
          subst hkk
          exact hnodup.1 (by simpa using List.mem_map_of_mem Prod.fst hm)
        simp only [dictGet, if_neg hk]
        exact ih hnodup.2 hm

theorem flatMap_congr_mem {α β : Type} (l : List α) (f g : α → List β)
    (h : ∀ a ∈ l, f a = g a) : l.flatMap f = l.flatMap g := by
  induction l with
  | nil => rfl
  | cons a l ih =>
      rw [List.flatMap_cons, List.flatMap_cons, h a (by simp),
        ih (fun a2 ha2 => h a2 (by simp [ha2]))]

theorem gen_aux_eq : ∀ (t : Node) (cur : String) (codes : Codes),
    Huffman2.generate_codes_aux t cur codes = Huffman1.generate_codes_aux t cur codes
  | .mk c f none none, cur, codes => by
      simp [Huffman1.generate_codes_aux, Huffman2.generate_codes_aux]
  | .mk c f (some l) none, cur, codes => by
      simp only [Huffman1.generate_codes_aux, Huffman2.generate_codes_aux,
        gen_aux_eq l (cur ++ "0") codes]
  | .mk c f none (some r), cur, codes => by
      simp [Huffman1.generate_codes_aux, Huffman2.generate_codes_aux]
  | .mk c f (some l) (some r), cur, codes => by
      simp only [Huffman1.generate_codes_aux, Huffman2.generate_codes_aux,
        gen_aux_eq l (cur ++ "0") codes]
      cases Huffman1.generate_codes_aux l (cur ++ "0") codes with
      | error e => rfl
      | ok codes1 =>
          rw [bind_ok_eq, bind_ok_eq, gen_aux_eq r (cur ++ "1") codes1]

theorem loop_eq : ∀ (n : Nat) (heap : List Node), heap.length = n →
    Huffman2.build_huffman_tree_loop heap = Huffman1.build_huffman_tree_loop heap := by
  intro n
  induction n using Nat.strong_induction_on with
  | _ n ih =>
      intro heap hlen
      match heap with
      | [] => simp [Huffman1.build_huffman_tree_loop, Huffman2.build_huffman_tree_loop]
      | [t] => simp [Huffman1.build_huffman_tree_loop, Huffman2.build_huffman_tree_loop]
      | n1 :: n2 :: rest =>
          rw [Huffman1.build_huffman_tree_loop, Huffman2.build_huffman_tree_loop]
          apply ih ((heappush rest (Node.mk none (n1.freq + n2.freq) (some n1) (some n2))).length)
          · rw [← hlen]
            simp [heappush, List.orderedInsert_length]
          · rfl

theorem pipeline_spec (text : String) (h : text ≠ "") :
    ∃ t : Node,
      Huffman1.build_huffman_tree (Huffman1.build_frequency_table text) = Except.ok t ∧
      WF t ∧ List.Perm (leafEntries t) (counter text) ∧ (leafChars t).Nodup ∧
      Huffman1.generate_codes (some t) "" none = Except.ok (pathsAux t "") ∧
      (∀ c ∈ text.data, c ∈ leafChars t) := by
  have hft_ne : counter text ≠ [] := counter_ne_nil text h
  obtain ⟨t, hb, hwf, hperm⟩ := build_ok (counter text) hft_ne
  have hkeysperm : List.Perm (leafChars t) ((counter text).map Prod.fst) :=
    hperm.map Prod.fst
  have hnodup : (leafChars t).Nodup := (hkeysperm.nodup_iff).2 (counter_keys_nodup text)
  have hmem : ∀ c ∈ text.data, c ∈ leafChars t := fun c hc =>
    (hkeysperm.mem_iff).2 ((mem_counter_keys text c).2 hc)
  exact ⟨t, hb, hwf, hperm, hnodup, gen_top_spec t hwf hnodup, hmem⟩

/-! ## Claim theorems -/

/-- C5: calling `build_huffman_tree` on an empty frequency table does
not fail with an explicit `EmptyInputError`; it evaluates `heap[0]` on
the empty heap, which raises `IndexError` (there is no precondition
check in the code, contradicting the design document §7). -/
theorem empty_table_index_error :
    Huffman1.build_huffman_tree [] = Except.error Err.indexError ∧
    Huffman1.build_huffman_tree [] ≠ Except.error Err.emptyInputError := by
  have h : Huffman1.build_huffman_tree [] = Except.error Err.indexError := by
    simp [Huffman1.build_huffman_tree, heapify, Huffman1.build_huffman_tree_loop]
  exact ⟨h, by rw [h]; simp⟩

/-- C7: when the tree root is a single leaf, `generate_codes` maps the
leaf's symbol to the one-bit code `"0"`, and `decode_text` returns that
symbol once per input character regardless of the bit values, so the
output length equals the bit-sequence length; concretely, `"aaaa"`
yields the table `{a: "0"}`, encoded `"0000"`, decoded `"aaaa"`. -/
theorem single_leaf_behavior :
    (∀ (c : Char) (f : Nat),
      Huffman1.generate_codes (some (Node.mk (some c) f none none)) "" none =
        Except.ok [(some c, "0")]) ∧
    (∀ (c : Char) (f : Nat) (s : String),
      Huffman1.decode_text s (Node.mk (some c) f none none) =
        Except.ok (String.mk (List.replicate s.length c)) ∧
      (String.mk (List.replicate s.length c)).length = s.length) ∧
    (Huffman1.build_frequency_table "aaaa" = [('a', 4)] ∧
     Huffman1.build_huffman_tree [('a', 4)] = Except.ok (Node.mk (some 'a') 4 none none) ∧
     Huffman1.generate_codes (some (Node.mk (some 'a') 4 none none)) "" none =
       Except.ok [(some 'a', "0")] ∧
     Huffman1.encode_text "aaaa" [(some 'a', "0")] = Except.ok "0000" ∧
     Huffman1.decode_text "0000" (Node.mk (some 'a') 4 none none) = Except.ok "aaaa") := by
  refine ⟨?_, ?_, ?_, ?_, ?_, ?_, ?_⟩
  · intro c f
    show Huffman1.generate_codes_aux (Node.mk (some c) f none none) "" [] = _
    simp [Huffman1.generate_codes_aux, dictSet]
  · intro c f s
    refine ⟨decode_text_leaf s c f, ?_⟩
    show (List.replicate s.length c).length = s.length
    simp
  · decide
  · simp [Huffman1.build_huffman_tree, heapify, Huffman1.build_huffman_tree_loop,
      List.insertionSort]
  · show Huffman1.generate_codes_aux (Node.mk (some 'a') 4 none none) "" [] = _
    simp [Huffman1.generate_codes_aux, dictSet]
  · rfl
  · rfl

/-- C9: the five pipeline functions of `HuffmanAlgorithm2.py` agree
with those of `HuffmanAlgorithm.py` on every input: same frequency
table, same tree, same code table (for a fresh top-level
`generate_codes` call), same encoded bit string, same decoded text. -/
theorem implementations_equivalent :
    (∀ text : String,
      Huffman2.build_frequency_table text = Huffman1.build_frequency_table text) ∧
    (∀ ft : List (Char × Nat),
      Huffman2.build_huffman_tree ft = Huffman1.build_huffman_tree ft) ∧
    (∀ (root : Option Node) (cur : String) (codes : Option Codes),
      Huffman2.generate_codes root cur codes = Huffman1.generate_codes root cur codes) ∧
    (∀ root : Node,
      Huffman2.generate_codes_top root = Huffman1.generate_codes (some root) "" (some [])) ∧
    (∀ (text : String) (codes : Codes),
      Huffman2.encode_text text codes = Huffman1.encode_text text codes) ∧
    (∀ (s : String) (root : Node),
      Huffman2.decode_text s root = Huffman1.decode_text s root) := by
  have hgen : ∀ (root : Option Node) (cur : String) (codes : Option Codes),
      Huffman2.generate_codes root cur codes = Huffman1.generate_codes root cur codes := by
    intro root cur codes
    cases root with
    | none => rfl
    | some n =>
        cases codes with
        | none => exact gen_aux_eq n cur []
        | some d => exact gen_aux_eq n cur d
  refine ⟨fun _ => rfl, ?_, hgen, ?_, fun _ _ => rfl, fun _ _ => rfl⟩
  · intro ft
    rw [Huffman2.build_huffman_tree, Huffman1.build_huffman_tree, loop_eq _ _ rfl]
  · intro root
    exact hgen (some root) "" none

/-- C6: `encode_text` fails (with the `KeyError` of `codes[char]`, the
only error it can raise) exactly when some character of the text has no
entry in the code table; when every character is covered it returns the
concatenation of the characters' codes in input order. -/
theorem encode_unknown_symbol_iff (text : String) (codes : Codes) :
    (Huffman1.encode_text text codes = Except.error Err.keyError ↔
      ∃ c ∈ text.data, dictGet codes (some c) = none) ∧
    (∀ e : Err, Huffman1.encode_text text codes = Except.error e → e = Err.keyError) ∧
    ((∀ c ∈ text.data, ∃ v, dictGet codes (some c) = some v) →
      Huffman1.encode_text text codes =
        Except.ok (String.join (text.data.map (fun c => (dictGet codes (some c)).getD "")))) := by
  refine ⟨enc_fold_err codes text.data "", fun e => enc_fold_no_other_err codes text.data "" e, ?_⟩
  intro hall
  have h1 : Huffman1.encode_text text codes = Except.ok (String.mk ("".data ++
      text.data.flatMap (fun c => ((dictGet codes (some c)).getD "").data))) :=
    enc_fold_ok codes text.data "" hall
  rw [h1, str_join_eq]
  congr 1
  simp [List.flatMap_def, List.map_map, Function.comp_def]

/-- C2: the code table generated from a tree built over a non-empty
frequency table (with distinct symbols) is prefix-free: no code string
in the table is a prefix of a different code string in it. -/
theorem codes_prefix_free (ft : List (Char × Nat))
    (hnodup : (ft.map Prod.fst).Nodup) (t : Node) (codes : Codes)
    (hb : Huffman1.build_huffman_tree ft = Except.ok t)
    (hg : Huffman1.generate_codes (some t) "" none = Except.ok codes) :
    ∀ e1 ∈ codes, ∀ e2 ∈ codes, e1.2 ≠ e2.2 → ¬ (e1.2.data <+: e2.2.data) := by
  have hne : ft ≠ [] := by
    intro hnil
    subst hnil
    rw [show Huffman1.build_huffman_tree [] = Except.error Err.indexError by
      simp [Huffman1.build_huffman_tree, heapify, Huffman1.build_huffman_tree_loop]] at hb
    exact Except.noConfusion hb
  obtain ⟨t0, hb0, hwf, hperm⟩ := build_ok ft hne
  rw [hb0] at hb
  injection hb with hb
  subst hb
  have hkeysperm : List.Perm (leafChars t0) (ft.map Prod.fst) := hperm.map Prod.fst
  have hndc : (leafChars t0).Nodup := (hkeysperm.nodup_iff).2 hnodup
  rw [gen_top_spec t0 hwf hndc] at hg
  injection hg with hg
  subst hg
  cases hwf with
  | leaf c0 f0 =>
      intro e1 he1 e2 he2 hne12 _
      simp only [pathsAux, List.mem_singleton] at he1 he2
      rw [he1, he2] at hne12
      exact hne12 rfl
  | node l r hl hr =>
      intro e1 he1 e2 he2 hne12 hpre
      set t0 : Node := Node.mk none (l.freq + r.freq) (some l) (some r) with ht0
      have hwf : WF t0 := WF.node l r hl hr
      have hkeysnd : ((pathsAux t0 "").map Prod.fst).Nodup := by
        rw [pathsAux_keys t0 hwf]
        exact hndc.map (fun a b => by simp)
      obtain ⟨k1, v1⟩ := e1
      obtain ⟨k2, v2⟩ := e2
      have hk1 : k1 ∈ (pathsAux t0 "").map Prod.fst := List.mem_map_of_mem Prod.fst he1
      have hk2 : k2 ∈ (pathsAux t0 "").map Prod.fst := List.mem_map_of_mem Prod.fst he2
      rw [pathsAux_keys t0 hwf] at hk1 hk2
      obtain ⟨c1, hc1, hk1e⟩ := List.mem_map.1 hk1
      obtain ⟨c2, hc2, hk2e⟩ := List.mem_map.1 hk2
      obtain ⟨p1, hp1⟩ := findCode_isSome t0 hwf c1 hc1
      obtain ⟨p2, hp2⟩ := findCode_isSome t0 hwf c2 hc2
      have hg1 : dictGet (pathsAux t0 "") k1 = some v1 := dictGet_of_mem _ hkeysnd _ _ he1
      have hg2 : dictGet (pathsAux t0 "") k2 = some v2 := dictGet_of_mem _ hkeysnd _ _ he2
      rw [← hk1e] at hg1
      rw [← hk2e] at hg2
      rw [paths_get_root t0 hwf _ l r rfl c1 p1 hp1] at hg1
      rw [paths_get_root t0 hwf _ l r rfl c2 p2 hp2] at hg2
      injection hg1 with hg1
      injection hg2 with hg2
      have hcne : c1 ≠ c2 := by
        intro hcc
        subst hcc
        rw [hp1] at hp2
        injection hp2 with hp2
        rw [← hg1, ← hg2, hp2] at hne12
        exact hne12 rfl
      have := findCode_not_prefix t0 hwf hndc c1 c2 p1 p2 hcne hp1 hp2
      rw [← hg1, ← hg2] at hpre
      exact this hpre

/-- C10: for a tree built from a frequency table with at least two
distinct symbols, `decode_text` (in both files) succeeds on every input
string — every internal node the builder creates has both children —
and every character other than `'0'` is treated like `'1'`, i.e. as a
move to the right child. -/
theorem decode_total_and_bit_interpretation (ft : List (Char × Nat))
    (hnodup : (ft.map Prod.fst).Nodup) (h2 : 2 ≤ ft.length) (t : Node)
    (hb : Huffman1.build_huffman_tree ft = Except.ok t) :
    (∀ s : String, ∃ out : String,
      Huffman1.decode_text s t = Except.ok out ∧
      Huffman2.decode_text s t = Except.ok out) ∧
    (∀ s : String,
      Huffman1.decode_text s t =
        Huffman1.decode_text (String.mk (s.data.map (fun b => if b = '0' then '0' else '1'))) t) := by
  have hne : ft ≠ [] := by
    intro h
    subst h
    simp at h2
  obtain ⟨t0, hb0, hwf, hperm⟩ := build_ok ft hne
  rw [hb0] at hb
  injection hb with hb
  subst hb
  have hlen : 2 ≤ (leafEntries t0).length := by rw [hperm.length_eq]; exact h2
  obtain ⟨f, l, r, hshape, hwl, hwr⟩ := wf_two_leaves_node t0 hwf hlen
  subst hshape
  constructor
  · intro s
    obtain ⟨res, hres⟩ :=
      decode_total_aux _ hwf ⟨f, l, r, rfl⟩ s.data _ hwf ⟨f, l, r, rfl⟩ ""
    refine ⟨res.1, ?_, ?_⟩
    · rw [decode_text_node, hres, bind_ok_eq]
      exact rfl
    · rw [show Huffman2.decode_text s (Node.mk none f (some l) (some r)) =
          Huffman1.decode_text s (Node.mk none f (some l) (some r)) from rfl,
        decode_text_node, hres, bind_ok_eq]
      exact rfl
  · intro s
    rw [decode_text_node, decode_text_node]
    rw [decode_fold_norm _ s.data ("", Node.mk none f (some l) (some r))]

/-- C8: for a tree with at least two leaves, decoding a bit sequence
that is a concatenation of complete codes followed by a non-empty
proper prefix of some code in the table raises no error and returns
exactly the symbols of the complete codes, emitting nothing for the
leftover bits. -/
theorem malformed_trailing_truncation (ft : List (Char × Nat))
    (hnodup : (ft.map Prod.fst).Nodup) (h2 : 2 ≤ ft.length) (t : Node) (codes : Codes)
    (hb : Huffman1.build_huffman_tree ft = Except.ok t)
    (hg : Huffman1.generate_codes (some t) "" none = Except.ok codes)
    (syms : List Char) (hsyms : ∀ c ∈ syms, some c ∈ codes.map Prod.fst)
    (frag : List Char) (hfrag_ne : frag ≠ [])
    (kf : Option Char) (vf : String) (hkv : (kf, vf) ∈ codes)
    (hpre : frag <+: vf.data) (hprop : frag ≠ vf.data) :
    Huffman1.decode_text
        (String.mk (syms.flatMap (fun c => ((dictGet codes (some c)).getD "").data) ++ frag)) t =
      Except.ok (String.mk syms) := by
  have hne : ft ≠ [] := by
    intro h
    subst h
    simp at h2
  obtain ⟨t0, hb0, hwf, hperm⟩ := build_ok ft hne
  rw [hb0] at hb
  injection hb with hb
  subst hb
  have hkeysperm : List.Perm (leafChars t0) (ft.map Prod.fst) := hperm.map Prod.fst
  have hndc : (leafChars t0).Nodup := (hkeysperm.nodup_iff).2 hnodup
  rw [gen_top_spec t0 hwf hndc] at hg
  injection hg with hg
  subst hg
  have hlen : 2 ≤ (leafEntries t0).length := by rw [hperm.length_eq]; exact h2
  obtain ⟨f, l, r, hshape, hwl, hwr⟩ := wf_two_leaves_node t0 hwf hlen
  have hkeysnd : ((pathsAux t0 "").map Prod.fst).Nodup := by
    rw [pathsAux_keys t0 hwf]
    exact hndc.map (fun a b => by simp)
  -- characters of `syms` are leaf characters
  have hsymsl : ∀ c ∈ syms, c ∈ leafChars t0 := by
    intro c hc
    have := hsyms c hc
    rw [pathsAux_keys t0 hwf] at this
    obtain ⟨c2, hc2, he⟩ := List.mem_map.1 this
    injection he with he
    subst he
    exact hc2
  -- lookups agree with findCode paths
  have hlook : ∀ c ∈ syms,
      ((dictGet (pathsAux t0 "") (some c)).getD "").data = (findCode t0 c).getD [] := by
    intro c hc
    obtain ⟨p, hp⟩ := findCode_isSome t0 hwf c (hsymsl c hc)
    rw [paths_get_root t0 hwf f l r hshape c p hp, hp]
    rfl
  -- the trailing fragment is a proper prefix of a root-to-leaf path
  have hkfmem : kf ∈ (pathsAux t0 "").map Prod.fst := List.mem_map_of_mem Prod.fst hkv
  rw [pathsAux_keys t0 hwf] at hkfmem
  obtain ⟨cf, hcf, hkfe⟩ := List.mem_map.1 hkfmem
  obtain ⟨pf, hpf⟩ := findCode_isSome t0 hwf cf hcf
  have hgf : dictGet (pathsAux t0 "") kf = some vf := dictGet_of_mem _ hkeysnd _ _ hkv
  rw [← hkfe] at hgf
  rw [paths_get_root t0 hwf f l r hshape cf pf hpf] at hgf
  injection hgf with hgf
  have hvf : vf.data = pf := by rw [← hgf]
  rw [hvf] at hpre hprop
  -- run the decode loop
  subst hshape
  rw [decode_text_node]
  have hdata : (String.mk (syms.flatMap
      (fun c => ((dictGet (pathsAux (Node.mk none f (some l) (some r)) "") (some c)).getD "").data)
        ++ frag)).data =
      syms.flatMap (fun c => (findCode (Node.mk none f (some l) (some r)) c).getD []) ++ frag := by
    rw [flatMap_congr_mem syms _ _ hlook]
  rw [hdata, List.foldlM_append]
  rw [decode_concat _ hwf f l r rfl syms hsymsl ""]
  rw [bind_ok_eq]
  simp only [show ("".data : List Char) = [] from rfl, List.nil_append]
  obtain ⟨v, hv⟩ := decode_trunc (Node.mk none f (some l) (some r))
    (Node.mk none f (some l) (some r)) hwf cf pf frag hpf hfrag_ne hpre hprop (String.mk syms)
  rw [hv, bind_ok_eq]
  exact rfl


/-- C1: for every non-empty text, decoding the encoding of the text
through the full pipeline (frequency table, tree, code table) recovers
the text exactly. -/
theorem round_trip_spec (text : String) (h : text ≠ "") :
    ∃ (t : Node) (codes : Codes) (encoded : String),
      Huffman1.build_huffman_tree (Huffman1.build_frequency_table text) = Except.ok t ∧
      Huffman1.generate_codes (some t) "" none = Except.ok codes ∧
      Huffman1.encode_text text codes = Except.ok encoded ∧
      Huffman1.decode_text encoded t = Except.ok text := by
  obtain ⟨t, hb, hwf, hperm, hnodup, hgen, hmem⟩ := pipeline_spec text h
  cases hwf with
  | leaf c0 f0 =>
      have hchars : ∀ c ∈ text.data, c = c0 := by
        intro c hc
        have := hmem c hc
        simpa [leafChars, leafEntries] using this
      have hpa : pathsAux (Node.mk (some c0) f0 none none) "" = [(some c0, "0")] := by
        simp [pathsAux]
      have hget : ∀ c ∈ text.data,
          dictGet (pathsAux (Node.mk (some c0) f0 none none) "") (some c) = some "0" := by
        intro c hc
        rw [hchars c hc, hpa]
        simp [dictGet]
      have haux : ∀ cs : List Char,
          (∀ c ∈ cs, dictGet (pathsAux (Node.mk (some c0) f0 none none) "") (some c) = some "0") →
          cs.flatMap (fun c =>
            ((dictGet (pathsAux (Node.mk (some c0) f0 none none) "") (some c)).getD "").data) =
          List.replicate cs.length '0' := by
        intro cs
        induction cs with
        | nil => intro _; rfl
        | cons c cs ih =>
            intro hall
            rw [List.flatMap_cons, hall c (by simp), ih (fun c2 h2 => hall c2 (by simp [h2]))]
            simp [List.replicate_succ]
      have henc : Huffman1.encode_text text (pathsAux (Node.mk (some c0) f0 none none) "") =
          Except.ok (String.mk (List.replicate text.data.length '0')) := by
        have h1 : Huffman1.encode_text text (pathsAux (Node.mk (some c0) f0 none none) "") =
            Except.ok (String.mk ("".data ++ text.data.flatMap (fun c =>
              ((dictGet (pathsAux (Node.mk (some c0) f0 none none) "") (some c)).getD "").data))) :=
          enc_fold_ok (pathsAux (Node.mk (some c0) f0 none none) "") text.data ""
            (fun c hc => ⟨"0", hget c hc⟩)
        rw [h1]
        congr 1
        rw [show ("".data : List Char) = [] from rfl, List.nil_append, haux text.data hget]
      have hlen : (String.mk (List.replicate text.data.length '0')).length = text.data.length := by
        rw [show (String.mk (List.replicate text.data.length '0')).length =
          (List.replicate text.data.length '0').length from rfl, List.length_replicate]
      have htext : String.mk (List.replicate text.data.length c0) = text := by
        have h2 : text.data = List.replicate text.data.length c0 := List.eq_replicate_of_mem hchars
        rw [← h2]
      have hdec : Huffman1.decode_text (String.mk (List.replicate text.data.length '0'))
          (Node.mk (some c0) f0 none none) = Except.ok text := by
        rw [decode_text_leaf, hlen, htext]
      exact ⟨_, _, _, hb, hgen, henc, hdec⟩
  | node l r hl hr =>
      have hwf : WF (Node.mk none (l.freq + r.freq) (some l) (some r)) := WF.node l r hl hr
      have hfindget : ∀ c ∈ text.data,
          dictGet (pathsAux (Node.mk none (l.freq + r.freq) (some l) (some r)) "") (some c) =
            some (String.mk ((findCode (Node.mk none (l.freq + r.freq) (some l) (some r)) c).getD [])) := by
        intro c hc
        obtain ⟨p, hp⟩ := findCode_isSome _ hwf c (hmem c hc)
        rw [paths_get_root _ hwf _ l r rfl c p hp, hp]
        rfl
      have henc : Huffman1.encode_text text
          (pathsAux (Node.mk none (l.freq + r.freq) (some l) (some r)) "") =
          Except.ok (String.mk (text.data.flatMap (fun c =>
            (findCode (Node.mk none (l.freq + r.freq) (some l) (some r)) c).getD []))) := by
        have h1 : Huffman1.encode_text text
            (pathsAux (Node.mk none (l.freq + r.freq) (some l) (some r)) "") =
            Except.ok (String.mk ("".data ++ text.data.flatMap (fun c =>
              ((dictGet (pathsAux (Node.mk none (l.freq + r.freq) (some l) (some r)) "")
                (some c)).getD "").data))) :=
          enc_fold_ok _ text.data "" (fun c hc => ⟨_, hfindget c hc⟩)
        rw [h1]
        congr 1
        rw [show ("".data : List Char) = [] from rfl, List.nil_append]
        congr 1
        apply flatMap_congr_mem
        intro c hc
        rw [hfindget c hc]
        rfl
      have hdec : Huffman1.decode_text
          (String.mk (text.data.flatMap (fun c =>
            (findCode (Node.mk none (l.freq + r.freq) (some l) (some r)) c).getD [])))
          (Node.mk none (l.freq + r.freq) (some l) (some r)) = Except.ok text := by
        rw [decode_text_node]
        rw [show (String.mk (text.data.flatMap (fun c =>
            (findCode (Node.mk none (l.freq + r.freq) (some l) (some r)) c).getD []))).data =
          text.data.flatMap (fun c =>
            (findCode (Node.mk none (l.freq + r.freq) (some l) (some r)) c).getD []) from rfl]
        rw [decode_concat _ hwf _ l r rfl text.data hmem ""]
        rw [bind_ok_eq]
        exact congrArg Except.ok (mk_data text)
      exact ⟨_, _, _, hb, hgen, henc, hdec⟩

/-- C4 (code bug in `HuffmanAlgorithm.py`): the default argument
`codes={}` is one shared dict, so the mapping returned by a top-level
call is NOT independent of earlier top-level calls: after
`generate_codes` on the tree for `"ab"`, calling it on the tree for
`"cd"` returns a mapping whose key set `{a, b, c, d}` also contains the
first tree's symbols, not just the leaves `{c, d}` of the second tree.
(`HuffmanAlgorithm2.py` fixed this with `codes=None`.) -/
theorem default_dict_leaks_across_calls :
    Huffman1.build_huffman_tree (Huffman1.build_frequency_table "ab") =
      Except.ok (Node.mk none 2 (some (Node.mk (some 'a') 1 none none))
        (some (Node.mk (some 'b') 1 none none))) ∧
    Huffman1.build_huffman_tree (Huffman1.build_frequency_table "cd") =
      Except.ok (Node.mk none 2 (some (Node.mk (some 'c') 1 none none))
        (some (Node.mk (some 'd') 1 none none))) ∧
    Huffman1.generate_codes_two_defaults
        (Node.mk none 2 (some (Node.mk (some 'a') 1 none none))
          (some (Node.mk (some 'b') 1 none none)))
        (Node.mk none 2 (some (Node.mk (some 'c') 1 none none))
          (some (Node.mk (some 'd') 1 none none))) =
      Except.ok ([(some 'a', "0"), (some 'b', "1")],
        [(some 'a', "0"), (some 'b', "1"), (some 'c', "0"), (some 'd', "1")]) ∧
    leafChars (Node.mk none 2 (some (Node.mk (some 'c') 1 none none))
        (some (Node.mk (some 'd') 1 none none))) = ['c', 'd'] ∧
    dictKeys [((some 'a' : Option Char), ("0" : String)), (some 'b', "1"),
        (some 'c', "0"), (some 'd', "1")] ≠
      (['c', 'd'].map some : List (Option Char)) := by
  refine ⟨?_, ?_, rfl, by decide, by decide⟩
  · rw [show Huffman1.build_frequency_table "ab" = [('a', 1), ('b', 1)] from by decide]
    simp [Huffman1.build_huffman_tree, heapify, Huffman1.build_huffman_tree_loop,
      heappush, List.insertionSort, List.orderedInsert, nodeLE, Node.freq]
  · rw [show Huffman1.build_frequency_table "cd" = [('c', 1), ('d', 1)] from by decide]
    simp [Huffman1.build_huffman_tree, heapify, Huffman1.build_huffman_tree_loop,
      heappush, List.insertionSort, List.orderedInsert, nodeLE, Node.freq]

/-- Witness for C1 at the concrete input `"ab"`. -/
theorem round_trip_spec_witness :
    ("ab" : String) ≠ "" ∧
    (∃ (t : Node) (codes : Codes) (encoded : String),
      Huffman1.build_huffman_tree (Huffman1.build_frequency_table "ab") = Except.ok t ∧
      Huffman1.generate_codes (some t) "" none = Except.ok codes ∧
      Huffman1.encode_text "ab" codes = Except.ok encoded ∧
      Huffman1.decode_text encoded t = Except.ok "ab") :=
  ⟨by decide, round_trip_spec "ab" (by decide)⟩

/-- Witness for C2 at the table of `"abb"`: the generated codes `"0"`
and `"1"` are not prefixes of each other. -/
theorem codes_prefix_free_witness :
    ¬ (("0" : String).data <+: ("1" : String).data) := by
  have hb : Huffman1.build_huffman_tree [('a', 1), ('b', 2)] =
      Except.ok (Node.mk none 3 (some (Node.mk (some 'a') 1 none none))
        (some (Node.mk (some 'b') 2 none none))) := by
    simp [Huffman1.build_huffman_tree, heapify, Huffman1.build_huffman_tree_loop,
      heappush, List.insertionSort, List.orderedInsert, nodeLE, Node.freq]
  have h := codes_prefix_free [('a', 1), ('b', 2)] (by decide)
    (Node.mk none 3 (some (Node.mk (some 'a') 1 none none))
      (some (Node.mk (some 'b') 2 none none)))
    [(some 'a', "0"), (some 'b', "1")] hb rfl
  exact h (some 'a', "0") (by decide) (some 'b', "1") (by decide) (by decide)

/-- Witness for C6: encoding `"ab"` with a table missing `'b'` raises
`KeyError`; with a complete table it returns the concatenation. -/
theorem encode_unknown_symbol_iff_witness :
    Huffman1.encode_text "ab" [(some 'a', "0")] = Except.error Err.keyError ∧
    Huffman1.encode_text "ab" [(some 'a', "0"), (some 'b', "1")] = Except.ok "01" := by
  constructor
  · exact (encode_unknown_symbol_iff "ab" [(some 'a', "0")]).1.2
      ⟨'b', by decide, by decide⟩
  · have h := (encode_unknown_symbol_iff "ab" [(some 'a', "0"), (some 'b', "1")]).2.2 ?_
    · rw [h]; rfl
    · intro c hc
      rw [show ("ab" : String).data = ['a', 'b'] from rfl] at hc
      rcases List.mem_cons.1 hc with rfl | hc2
      · exact ⟨"0", rfl⟩
      · rcases List.mem_cons.1 hc2 with rfl | hc3
        · exact ⟨"1", rfl⟩
        · exact absurd hc3 (by simp)

/-- Witness for C8 on the table of `"abbcccc"`: decoding `"000"`
(the code `"00"` of `'a'` plus the dangling bit `'0'`) silently yields
just `"a"`. -/
theorem malformed_trailing_truncation_witness :
    Huffman1.decode_text "000"
      (Node.mk none 7
        (some (Node.mk none 3 (some (Node.mk (some 'a') 1 none none))
          (some (Node.mk (some 'b') 2 none none))))
        (some (Node.mk (some 'c') 4 none none))) = Except.ok "a" := by
  have hb : Huffman1.build_huffman_tree [('a', 1), ('b', 2), ('c', 4)] =
      Except.ok (Node.mk none 7
        (some (Node.mk none 3 (some (Node.mk (some 'a') 1 none none))
          (some (Node.mk (some 'b') 2 none none))))
        (some (Node.mk (some 'c') 4 none none))) := by
    simp [Huffman1.build_huffman_tree, heapify, Huffman1.build_huffman_tree_loop,
      heappush, List.insertionSort, List.orderedInsert, nodeLE, Node.freq]
  have h := malformed_trailing_truncation [('a', 1), ('b', 2), ('c', 4)] (by decide)
    (by decide)
    (Node.mk none 7
      (some (Node.mk none 3 (some (Node.mk (some 'a') 1 none none))
        (some (Node.mk (some 'b') 2 none none))))
      (some (Node.mk (some 'c') 4 none none)))
    [(some 'a', "00"), (some 'b', "01"), (some 'c', "1")] hb rfl
    ['a'] (by decide) ['0'] (by decide) (some 'a') "00" (by decide)
    ⟨['0'], rfl⟩ (by decide)
  exact h

/-- Witness for C10 on the table of `"abb"`: a non-bit character `'x'`
decodes exactly like `'1'`. -/
theorem decode_total_and_bit_interpretation_witness :
    Huffman1.decode_text "0x"
        (Node.mk none 3 (some (Node.mk (some 'a') 1 none none))
          (some (Node.mk (some 'b') 2 none none))) =
      Huffman1.decode_text "01"
        (Node.mk none 3 (some (Node.mk (some 'a') 1 none none))
          (some (Node.mk (some 'b') 2 none none))) := by
  have hb : Huffman1.build_huffman_tree [('a', 1), ('b', 2)] =
      Except.ok (Node.mk none 3 (some (Node.mk (some 'a') 1 none none))
        (some (Node.mk (some 'b') 2 none none))) := by
    simp [Huffman1.build_huffman_tree, heapify, Huffman1.build_huffman_tree_loop,
      heappush, List.insertionSort, List.orderedInsert, nodeLE, Node.freq]
  have h := (decode_total_and_bit_interpretation [('a', 1), ('b', 2)] (by decide)
    (by decide) _ hb).2 "0x"
  exact h

/-! ### Cost of the built tree -/

theorem sum_map_add {α : Type} (l : List α) (f g : α → Nat) :
    (l.map (fun a => f a + g a)).sum = (l.map f).sum + (l.map g).sum := by
  induction l with
  | nil => rfl
  | cons a l ih =>
      simp only [List.map_cons, List.sum_cons, ih]
      omega

theorem map_freq_orderedInsert (x : Node) (l : List Node) :
    (List.orderedInsert nodeLE x l).map Node.freq =
      List.orderedInsert (· ≤ ·) x.freq (l.map Node.freq) := by
  induction l with
  | nil => rfl
  | cons h t ih =>
      by_cases hc : nodeLE x h
      · simp only [List.orderedInsert, if_pos hc, List.map_cons]
        rw [if_pos (show x.freq ≤ h.freq from hc)]
      · simp only [List.orderedInsert, if_neg hc, List.map_cons]
        rw [if_neg (show ¬ x.freq ≤ h.freq from hc), ih]

theorem wf_freq_eq_sum (t : Node) (hwf : WF t) :
    Node.freq t = ((leafEntries t).map Prod.snd).sum := by
  induction hwf with
  | leaf c f => simp [leafEntries, Node.freq]
  | node l r hl hr ihl ihr =>
      rw [show Node.freq (Node.mk none (l.freq + r.freq) (some l) (some r)) =
        Node.freq l + Node.freq r from rfl, leafEntries_merge, List.map_append,
        List.sum_append, ihl, ihr]

theorem leaf_depth_cost (t : Node) (hwf : WF t) (hnodup : (leafChars t).Nodup) :
    ((leafEntries t).map (fun e => e.2 * ((findCode t e.1).getD []).length)).sum =
      internalSum t := by
  induction hwf with
  | leaf c f => simp [leafEntries, findCode, internalSum]
  | node l r hl hr ihl ihr =>
      rw [leafChars_merge] at hnodup
      have hnl := hnodup.of_append_left
      have hnr := hnodup.of_append_right
      have hdisj : ∀ c ∈ leafChars l, c ∉ leafChars r :=
        fun c hcl hcr => (List.disjoint_of_nodup_append hnodup) hcl hcr
      have hmapl : (leafEntries l).map (fun e =>
            e.2 * ((findCode (Node.mk none (l.freq + r.freq) (some l) (some r)) e.1).getD []).length) =
          (leafEntries l).map (fun e =>
            e.2 * (((findCode l e.1).getD []).length + 1)) := by
        apply List.map_congr_left
        intro e he
        have hcl : e.1 ∈ leafChars l := List.mem_map_of_mem Prod.fst he
        obtain ⟨p, hp⟩ := findCode_isSome l hl e.1 hcl
        rw [findCode_node, hp]
        simp [hp]
      have hmapr : (leafEntries r).map (fun e =>
            e.2 * ((findCode (Node.mk none (l.freq + r.freq) (some l) (some r)) e.1).getD []).length) =
          (leafEntries r).map (fun e =>
            e.2 * (((findCode r e.1).getD []).length + 1)) := by
        apply List.map_congr_left
        intro e he
        have hcr : e.1 ∈ leafChars r := List.mem_map_of_mem Prod.fst he
        have hncl : e.1 ∉ leafChars l := fun hx => hdisj e.1 hx hcr
        have hfl : findCode l e.1 = none := (findCode_none l hl e.1).2 hncl
        obtain ⟨p, hp⟩ := findCode_isSome r hr e.1 hcr
        rw [findCode_node, hfl, hp]
        simp [hp]
      rw [leafEntries_merge, List.map_append, List.sum_append, hmapl, hmapr]
      have hexpand : ∀ (le2 : List (Char × Nat)) (fc : Char → Nat),
          (le2.map (fun e => e.2 * (fc e.1 + 1))).sum =
            (le2.map (fun e => e.2 * fc e.1)).sum + (le2.map Prod.snd).sum := by
        intro le2 fc
        rw [show (le2.map (fun e => e.2 * (fc e.1 + 1))) =
          (le2.map (fun e => e.2 * fc e.1 + e.2)) from by
            apply List.map_congr_left
            intro e _
            ring]
        exact sum_map_add le2 _ _
      rw [hexpand (leafEntries l) (fun c => ((findCode l c).getD []).length),
        hexpand (leafEntries r) (fun c => ((findCode r c).getD []).length)]
      rw [ihl hnl, ihr hnr]
      rw [show internalSum (Node.mk none (l.freq + r.freq) (some l) (some r)) =
        (l.freq + r.freq) + internalSum l + internalSum r from by simp [internalSum]]
      rw [wf_freq_eq_sum l hl, wf_freq_eq_sum r hr]
      omega

theorem loop_cost : ∀ (n : Nat) (heap : List Node), heap.length = n → heap ≠ [] →
    List.Sorted nodeLE heap →
    ∃ t, Huffman1.build_huffman_tree_loop heap = [t] ∧
      internalSum t = (heap.map internalSum).sum + hv (heap.map Node.freq) := by
  intro n
  induction n using Nat.strong_induction_on with
  | _ n ih =>
    intro heap hlen hne hsorted
    match heap with
    | [] => exact absurd rfl hne
    | [t] =>
        refine ⟨t, by simp [Huffman1.build_huffman_tree_loop], ?_⟩
        simp [hv]
    | n1 :: n2 :: rest =>
        have hstep : Huffman1.build_huffman_tree_loop (n1 :: n2 :: rest) =
            Huffman1.build_huffman_tree_loop
              (heappush rest (Node.mk none (n1.freq + n2.freq) (some n1) (some n2))) := by
          rw [Huffman1.build_huffman_tree_loop]
        set merged := Node.mk none (n1.freq + n2.freq) (some n1) (some n2) with hm
        have hperm : List.Perm (heappush rest merged) (merged :: rest) := heappush_perm rest merged
        have hlen2 : (heappush rest merged).length = rest.length + 1 := by
          simp [heappush, List.orderedInsert_length]
        have hlt : (heappush rest merged).length < n := by
          rw [hlen2, ← hlen]; simp [List.length_cons]
        have hne2 : heappush rest merged ≠ [] := by
          intro hnil; rw [hnil] at hlen2; simp at hlen2
        have hsorted2 : List.Sorted nodeLE (heappush rest merged) :=
          List.Sorted.orderedInsert merged rest ((List.sorted_cons.1 ((List.sorted_cons.1 hsorted).2)).2)
        obtain ⟨t, hloop, hcost⟩ := ih _ hlt (heappush rest merged) rfl hne2 hsorted2
        refine ⟨t, by rw [hstep, hloop], ?_⟩
        rw [hcost]
        have hsum : ((heappush rest merged).map internalSum).sum =
            internalSum merged + (rest.map internalSum).sum := by
          rw [(hperm.map internalSum).sum_eq]
          simp
        have hfmap : (heappush rest merged).map Node.freq =
            List.orderedInsert (· ≤ ·) (n1.freq + n2.freq) (rest.map Node.freq) := by
          rw [show heappush rest merged = List.orderedInsert nodeLE merged rest from rfl,
            map_freq_orderedInsert]
          rw [show merged.freq = n1.freq + n2.freq from rfl]
        have hhv : hv ((n1 :: n2 :: rest).map Node.freq) =
            n1.freq + n2.freq + hv (List.orderedInsert (· ≤ ·) (n1.freq + n2.freq)
              (rest.map Node.freq)) := by
          simp [hv]
        have hmerged : internalSum merged =
            (n1.freq + n2.freq) + internalSum n1 + internalSum n2 := by
          simp [hm, internalSum]
        rw [hsum, hfmap, hhv, hmerged]
        simp only [List.map_cons, List.sum_cons]
        omega

theorem build_cost (ft : List (Char × Nat)) (hne : ft ≠ []) (t : Node)
    (hb : Huffman1.build_huffman_tree ft = Except.ok t) :
    internalSum t = hv (sortedWeights ft) := by
  set heap := heapify (ft.map (fun p => Node.mk (some p.1) p.2 none none)) with hh
  have hperm : List.Perm heap (ft.map (fun p => Node.mk (some p.1) p.2 none none)) :=
    heapify_perm _
  have hne2 : heap ≠ [] := by
    intro hnil
    have := hperm.length_eq
    rw [hnil] at this
    simp at this
    exact hne (List.eq_nil_of_length_eq_zero (by simp [this]))
  have hsorted : List.Sorted nodeLE heap := List.sorted_insertionSort nodeLE _
  obtain ⟨t0, hloop, hcost⟩ := loop_cost heap.length heap rfl hne2 hsorted
  have ht : t = t0 := by
    rw [Huffman1.build_huffman_tree, ← hh, hloop] at hb
    injection hb with hb
    exact hb.symm
  subst ht
  rw [hcost]
  have hzero : (heap.map internalSum).sum = 0 := by
    apply List.sum_eq_zero
    intro x hx
    obtain ⟨u, hu, hux⟩ := List.mem_map.1 hx
    have := hperm.mem_iff.1 hu
    obtain ⟨p, _, hp⟩ := List.mem_map.1 this
    rw [← hux, ← hp]
    simp [internalSum]
  have hfreqs : heap.map Node.freq = sortedWeights ft := by
    apply List.eq_of_perm_of_sorted (r := (· ≤ ·))
    · refine ((hperm.map Node.freq).trans ?_).trans
        (List.perm_insertionSort (· ≤ ·) (ft.map Prod.snd)).symm
      rw [List.map_map]
      apply List.Perm.of_eq
      apply List.map_congr_left
      intro p _
      rfl
    · exact List.Pairwise.map Node.freq (fun a b h => h) hsorted
    · exact List.sorted_insertionSort _ _
  rw [hzero, hfreqs]
  omega

/-! ### Grouping character sums by frequency -/

theorem bump_sum (g : Char → Nat) (d : List (Char × Nat)) (x : Char) :
    ((bumpCount d x).map (fun p => p.2 * g p.1)).sum =
      ((d.map (fun p => p.2 * g p.1)).sum) + g x := by
  induction d with
  | nil => simp [bumpCount]
  | cons p rest ih =>
      obtain ⟨k, v⟩ := p
      by_cases h : k = x
      · subst h
        simp [bumpCount]
        ring
      · simp only [bumpCount, if_neg h, List.map_cons, List.sum_cons, ih]
        ring

theorem counter_sum (g : Char → Nat) (text : String) :
    ((counter text).map (fun p => p.2 * g p.1)).sum = (text.data.map g).sum := by
  suffices h : ∀ (cs : List Char) (d : List (Char × Nat)),
      ((cs.foldl bumpCount d).map (fun p => p.2 * g p.1)).sum =
        (d.map (fun p => p.2 * g p.1)).sum + (cs.map g).sum by
    have h2 := h text.data []
    simpa [counter] using h2
  intro cs
  induction cs with
  | nil => intro d; simp
  | cons c cs ih =>
      intro d
      rw [List.foldl_cons, ih (bumpCount d c), bump_sum g d c]
      simp only [List.map_cons, List.sum_cons]
      ring

/-! ### Table surgery for the optimality bound -/

theorem mem_removeKey (items : List (Char × Nat)) (c : Char) (p : Char × Nat) :
    p ∈ removeKey items c ↔ p ∈ items ∧ p.1 ≠ c := by
  simp [removeKey, List.mem_filter]

theorem removeKey_keys_sub (items : List (Char × Nat)) (c : Char) :
    (removeKey items c).map Prod.fst ⊆ items.map Prod.fst := by
  intro k hk
  obtain ⟨p, hp, hpk⟩ := List.mem_map.1 hk
  rw [← hpk]
  exact List.mem_map_of_mem Prod.fst ((mem_removeKey items c p).1 hp).1

theorem removeKey_sublist (items : List (Char × Nat)) (c : Char) :
    List.Sublist (removeKey items c) items :=
  List.filter_sublist items

theorem removeKey_keys_nodup (items : List (Char × Nat)) (c : Char)
    (h : (items.map Prod.fst).Nodup) : ((removeKey items c).map Prod.fst).Nodup :=
  List.Nodup.sublist (List.Sublist.map Prod.fst (removeKey_sublist items c)) h

theorem not_mem_removeKey_keys (items : List (Char × Nat)) (c : Char) :
    c ∉ (removeKey items c).map Prod.fst := by
  intro hc
  obtain ⟨p, hp, hpk⟩ := List.mem_map.1 hc
  exact ((mem_removeKey items c p).1 hp).2 hpk

theorem removeKey_of_not_mem (items : List (Char × Nat)) (c : Char)
    (h : c ∉ items.map Prod.fst) : removeKey items c = items := by
  apply List.filter_eq_self.2
  intro p hp
  simp only [ne_eq, decide_not, Bool.not_eq_eq_eq_not, Bool.not_true, decide_eq_false_iff_not]
  intro hpc
  exact h (hpc ▸ List.mem_map_of_mem Prod.fst hp)

theorem extract_one (items : List (Char × Nat)) (hnd : (items.map Prod.fst).Nodup)
    (u : Char) (fu : Nat) (hu : (u, fu) ∈ items) :
    List.Perm items ((u, fu) :: removeKey items u) := by
  induction items with
  | nil => exact absurd hu (by simp)
  | cons p rest ih =>
      obtain ⟨k, v⟩ := p
      simp only [List.map_cons, List.nodup_cons] at hnd
      rcases List.mem_cons.1 hu with he | hm
      · injection he with h1 h2
        subst h1
        subst h2
        have hnr : removeKey ((u, fu) :: rest) u = rest := by
          have h3 : removeKey ((u, fu) :: rest) u = removeKey rest u := by
            simp only [removeKey, List.filter_cons]
            rw [if_neg (by simp)]
          rw [h3]
          exact removeKey_of_not_mem rest u hnd.1
        rw [hnr]
      · have hku : k ≠ u := by
          intro hkk
          subst hkk
          exact hnd.1 (List.mem_map_of_mem Prod.fst hm)
        have hrk : removeKey ((k, v) :: rest) u = (k, v) :: removeKey rest u := by
          simp only [removeKey, List.filter_cons]
          rw [if_pos (by simp [hku])]
        rw [hrk]
        refine ((ih hnd.2 hm).cons (k, v)).trans ?_
        exact List.Perm.swap _ _ _

theorem extract_two (items : List (Char × Nat)) (hnd : (items.map Prod.fst).Nodup)
    (u v : Char) (fu fv : Nat) (hu : (u, fu) ∈ items) (hv : (v, fv) ∈ items) (hne : u ≠ v) :
    List.Perm items ((u, fu) :: (v, fv) :: removeKey (removeKey items u) v) := by
  have h1 := extract_one items hnd u fu hu
  have hvr : (v, fv) ∈ removeKey items u := (mem_removeKey _ _ _).2 ⟨hv, hne.symm⟩
  have hnd2 := removeKey_keys_nodup items u hnd
  have h2 := extract_one (removeKey items u) hnd2 v fv hvr
  exact h1.trans (h2.cons (u, fu))

theorem costOf_perm (items items2 : List (Char × Nat))
    (h : List.Perm items items2) (cf : Char → List Char) :
    costOf items cf = costOf items2 cf :=
  (h.map _).sum_eq

theorem swapCode_left (cf : Char → List Char) (u v : Char) : swapCode cf u v u = cf v := by
  simp [swapCode]

theorem swapCode_right (cf : Char → List Char) (u v : Char) : swapCode cf u v v = cf u := by
  by_cases hvu : v = u
  · rw [hvu]
    simp [swapCode]
  · simp [swapCode, hvu]

theorem swapCode_other (cf : Char → List Char) (u v c : Char)
    (hcu : c ≠ u) (hcv : c ≠ v) : swapCode cf u v c = cf c := by
  simp [swapCode, hcu, hcv]

theorem swapCode_vals (cf : Char → List Char) (u v c : Char) :
    swapCode cf u v c = cf (if c = u then v else if c = v then u else c) := by
  by_cases h1 : c = u
  · simp [swapCode, h1]
  · by_cases h2 : c = v
    · by_cases h3 : v = u <;> simp [swapCode, h1, h2, h3]
    · simp [swapCode, h1, h2]

theorem sigma_mem (keys : List Char) (u v c : Char) (hu : u ∈ keys) (hv : v ∈ keys)
    (hc : c ∈ keys) : (if c = u then v else if c = v then u else c) ∈ keys := by
  by_cases h1 : c = u
  · simp [h1, hv]
  · by_cases h2 : c = v
    · by_cases h3 : v = u <;> simp [h1, h2, h3, hu, hv]
    · simp [h1, h2, hc]

theorem sigma_invol (u v c : Char) :
    (if (if c = u then v else if c = v then u else c) = u then v
      else if (if c = u then v else if c = v then u else c) = v then u
      else (if c = u then v else if c = v then u else c)) = c := by
  by_cases h1 : c = u
  · subst h1
    rw [if_pos rfl]
    by_cases h2 : v = c
    · rw [if_pos h2, h2]
    · rw [if_neg h2, if_pos rfl]
  · rw [if_neg h1]
    by_cases h2 : c = v
    · subst h2
      rw [if_pos rfl, if_pos rfl]
    · rw [if_neg h2, if_neg h1, if_neg h2]

theorem sigma_inj (u v c1 c2 : Char)
    (h : (if c1 = u then v else if c1 = v then u else c1) =
      (if c2 = u then v else if c2 = v then u else c2)) : c1 = c2 := by
  have h1 := sigma_invol u v c1
  have h2 := sigma_invol u v c2
  rw [← h1, ← h2, h]

theorem swap_pf (K : List Char) (cf : Char → List Char) (u v : Char)
    (hu : u ∈ K) (hv : v ∈ K)
    (hpf : ∀ c1 ∈ K, ∀ c2 ∈ K, c1 ≠ c2 → ¬ (cf c1 <+: cf c2)) :
    ∀ c1 ∈ K, ∀ c2 ∈ K, c1 ≠ c2 → ¬ (swapCode cf u v c1 <+: swapCode cf u v c2) := by
  intro c1 h1 c2 h2 hne
  rw [swapCode_vals, swapCode_vals]
  apply hpf _ (sigma_mem K u v c1 hu hv h1) _ (sigma_mem K u v c2 hu hv h2)
  intro he
  exact hne (sigma_inj u v c1 c2 he)

theorem swap_ne (K : List Char) (cf : Char → List Char) (u v : Char)
    (hu : u ∈ K) (hv : v ∈ K) (hne : ∀ c ∈ K, cf c ≠ []) :
    ∀ c ∈ K, swapCode cf u v c ≠ [] := by
  intro c hc
  rw [swapCode_vals]
  exact hne _ (sigma_mem K u v c hu hv hc)

theorem swap_bin (K : List Char) (cf : Char → List Char) (u v : Char)
    (hu : u ∈ K) (hv : v ∈ K)
    (hbin : ∀ c ∈ K, ∀ b ∈ cf c, b = '0' ∨ b = '1') :
    ∀ c ∈ K, ∀ b ∈ swapCode cf u v c, b = '0' ∨ b = '1' := by
  intro c hc
  rw [swapCode_vals]
  exact hbin _ (sigma_mem K u v c hu hv hc)

theorem swap_len_le (K : List Char) (cf : Char → List Char) (u v : Char) (L : Nat)
    (hu : u ∈ K) (hv : v ∈ K) (hlen : ∀ c ∈ K, (cf c).length ≤ L) :
    ∀ c ∈ K, (swapCode cf u v c).length ≤ L := by
  intro c hc
  rw [swapCode_vals]
  exact hlen _ (sigma_mem K u v c hu hv hc)

theorem rearrange_ineq (a b x y : Nat) (hab : a ≤ b) (hxy : x ≤ y) :
    a * y + b * x ≤ a * x + b * y := by
  nlinarith

theorem costOf_others_congr (items : List (Char × Nat)) (cf cg : Char → List Char)
    (h : ∀ p ∈ items, cf p.1 = cg p.1) : costOf items cf = costOf items cg := by
  unfold costOf
  congr 1
  apply List.map_congr_left
  intro p hp
  rw [h p hp]

theorem swapCode_cost_le (items : List (Char × Nat)) (hnd : (items.map Prod.fst).Nodup)
    (cf : Char → List Char) (u v : Char) (fu fv : Nat)
    (hu : (u, fu) ∈ items) (hv : (v, fv) ∈ items) (hne : u ≠ v)
    (hfle : fu ≤ fv) (hlle : (cf u).length ≤ (cf v).length) :
    costOf items (swapCode cf u v) ≤ costOf items cf := by
  have hperm := extract_two items hnd u v fu fv hu hv hne
  rw [costOf_perm _ _ hperm (swapCode cf u v), costOf_perm _ _ hperm cf]
  have hothers : ∀ p ∈ removeKey (removeKey items u) v, swapCode cf u v p.1 = cf p.1 := by
    intro p hp
    have hpv : p.1 ≠ v := ((mem_removeKey _ _ _).1 hp).2
    have hpu : p.1 ≠ u := ((mem_removeKey _ _ _).1 ((mem_removeKey _ _ _).1 hp).1).2
    exact swapCode_other cf u v p.1 hpu hpv
  simp only [costOf, List.map_cons, List.sum_cons]
  have hsum : ((removeKey (removeKey items u) v).map
        (fun p => p.2 * (swapCode cf u v p.1).length)).sum =
      ((removeKey (removeKey items u) v).map (fun p => p.2 * (cf p.1).length)).sum := by
    congr 1
    apply List.map_congr_left
    intro p hp
    rw [hothers p hp]
  rw [swapCode_left, swapCode_right, hsum]
  have := rearrange_ineq fu fv (cf u).length (cf v).length hfle hlle
  omega

theorem exists_max_entry (items : List (Char × Nat)) (hne : items ≠ []) (g : Char → Nat) :
    ∃ z ∈ items, ∀ p ∈ items, g p.1 ≤ g z.1 := by
  induction items with
  | nil => exact absurd rfl hne
  | cons p rest ih =>
      cases rest with
      | nil =>
          refine ⟨p, by simp, ?_⟩
          intro p2 hp2
          rcases List.mem_cons.1 hp2 with he | hm
          · rw [he]
          · exact absurd hm (by simp)
      | cons q t =>
          obtain ⟨z, hz, hmax⟩ := ih (by simp)
          by_cases hc : g p.1 ≤ g z.1
          · refine ⟨z, by simp [hz], ?_⟩
            intro p2 hp2
            rcases List.mem_cons.1 hp2 with he | hm
            · rw [he]; exact hc
            · exact hmax p2 hm
          · refine ⟨p, by simp, ?_⟩
            intro p2 hp2
            rcases List.mem_cons.1 hp2 with he | hm
            · rw [he]
            · exact Nat.le_trans (hmax p2 hm) (Nat.le_of_not_le hc)

theorem swapCode_self (cf : Char → List Char) (u c : Char) : swapCode cf u u c = cf c := by
  by_cases h : c = u <;> simp [swapCode, h]

theorem swapCode_costLen_eq (items : List (Char × Nat)) (hnd : (items.map Prod.fst).Nodup)
    (cf : Char → List Char) (u v : Char) (fu fv : Nat)
    (hu : (u, fu) ∈ items) (hv : (v, fv) ∈ items) :
    (items.map (fun p => ((swapCode cf u v) p.1).length)).sum =
      (items.map (fun p => (cf p.1).length)).sum := by
  by_cases hne : u = v
  · subst hne
    congr 1
    apply List.map_congr_left
    intro p _
    rw [swapCode_self]
  · have hperm := extract_two items hnd u v fu fv hu hv hne
    rw [(hperm.map (fun p => ((swapCode cf u v) p.1).length)).sum_eq,
      (hperm.map (fun p => (cf p.1).length)).sum_eq]
    simp only [List.map_cons, List.sum_cons]
    have hothers : ((removeKey (removeKey items u) v).map
          (fun p => ((swapCode cf u v) p.1).length)).sum =
        ((removeKey (removeKey items u) v).map (fun p => (cf p.1).length)).sum := by
      congr 1
      apply List.map_congr_left
      intro p hp
      have hpv : p.1 ≠ v := ((mem_removeKey _ _ _).1 hp).2
      have hpu : p.1 ≠ u := ((mem_removeKey _ _ _).1 ((mem_removeKey _ _ _).1 hp).1).2
      rw [swapCode_other cf u v p.1 hpu hpv]
    rw [swapCode_left, swapCode_right, hothers]
    omega

theorem prefix_extend (l m : List Char) (h : l <+: m) (hlen : l.length + 1 = m.length) :
    ∃ b, m = l ++ [b] := by
  obtain ⟨t, rfl⟩ := h
  have hl : t.length = 1 := by
    have := List.length_append l t
    omega
  obtain ⟨b, rfl⟩ := List.length_eq_one.1 hl
  exact ⟨b, rfl⟩

theorem binary_singleton (l : List Char) (hlen : l.length = 1)
    (hbin : ∀ b ∈ l, b = '0' ∨ b = '1') : l = ['0'] ∨ l = ['1'] := by
  obtain ⟨b, rfl⟩ := List.length_eq_one.1 hlen
  rcases hbin b (by simp) with h | h <;> simp [h]

theorem extend_code_cases (w p0 : List Char) (wlast : Char) (hw : w = p0 ++ [wlast])
    (code2 : List Char) (hbin2 : ∀ b ∈ code2, b = '0' ∨ b = '1')
    (hwlastbin : wlast = '0' ∨ wlast = '1')
    (hpre : p0 <+: code2) (hlenle : code2.length ≤ w.length) :
    code2 = p0 ∨ code2 = w ∨ code2 = p0 ++ [if wlast = '0' then '1' else '0'] := by
  have hlw : w.length = p0.length + 1 := by rw [hw]; simp
  have hge : p0.length ≤ code2.length := hpre.length_le
  by_cases he : code2.length = p0.length
  · left
    exact (hpre.eq_of_length he.symm).symm
  · have hc2 : p0.length + 1 = code2.length := by omega
    obtain ⟨bit, rfl⟩ := prefix_extend p0 code2 hpre hc2
    have hbitbin : bit = '0' ∨ bit = '1' := hbin2 bit (by simp)
    by_cases hbw : bit = wlast
    · right; left
      rw [hw, hbw]
    · right; right
      rcases hbitbin with h | h <;> rcases hwlastbin with h2 | h2 <;>
        first
          | (exact absurd (h.trans h2.symm) hbw)
          | simp [h, h2]

theorem sortedWeights_perm (items : List (Char × Nat)) :
    List.Perm (sortedWeights items) (items.map Prod.snd) :=
  List.perm_insertionSort _ _

theorem sortedWeights_sorted (items : List (Char × Nat)) :
    List.Sorted (· ≤ ·) (sortedWeights items) :=
  List.sorted_insertionSort _ _

theorem sortedWeights_length (items : List (Char × Nat)) :
    (sortedWeights items).length = items.length := by
  rw [(sortedWeights_perm items).length_eq, List.length_map]

theorem hv_cons2 (a b : Nat) (rest : List Nat) :
    hv (a :: b :: rest) = a + b + hv (List.orderedInsert (· ≤ ·) (a + b) rest) := by
  rw [hv]

theorem lb_huffman : ∀ (mu : Nat) (items : List (Char × Nat)) (cf : Char → List Char),
    items.length + (items.map (fun p => (cf p.1).length)).sum = mu →
    (items.map Prod.fst).Nodup →
    2 ≤ items.length →
    (∀ c ∈ items.map Prod.fst, ∀ b ∈ cf c, b = '0' ∨ b = '1') →
    (∀ c1 ∈ items.map Prod.fst, ∀ c2 ∈ items.map Prod.fst, c1 ≠ c2 → ¬ (cf c1 <+: cf c2)) →
    (∀ c ∈ items.map Prod.fst, cf c ≠ []) →
    hv (sortedWeights items) ≤ costOf items cf := by
  intro mu
  induction mu using Nat.strong_induction_on with
  | _ mu ih =>
  intro items cf hmu hnd h2 hbin hpf hcne
  by_cases hb2 : items.length = 2
  · -- base case: exactly two symbols
    obtain ⟨p1, p2, rfl⟩ : ∃ p1 p2, items = [p1, p2] := by
      cases items with
      | nil => simp at hb2
      | cons p1 t =>
          cases t with
          | nil => simp at hb2
          | cons p2 t2 =>
              cases t2 with
              | nil => exact ⟨p1, p2, rfl⟩
              | cons p3 t3 => simp [List.length_cons] at hb2
    have hswl : (sortedWeights [p1, p2]).length = 2 := by
      rw [sortedWeights_length]
      rfl
    obtain ⟨a, b, hsw⟩ : ∃ a b, sortedWeights [p1, p2] = [a, b] := by
      cases hs : sortedWeights [p1, p2] with
      | nil => rw [hs] at hswl; simp at hswl
      | cons a t =>
          cases t with
          | nil => rw [hs] at hswl; simp at hswl
          | cons b t2 =>
              cases t2 with
              | nil => exact ⟨a, b, rfl⟩
              | cons c t3 => rw [hs] at hswl; simp [List.length_cons] at hswl
    have hvab : hv (sortedWeights [p1, p2]) = a + b := by
      rw [hsw, hv_cons2 a b []]
      simp [hv, List.orderedInsert]
    have habsum : a + b = p1.2 + p2.2 := by
      have hp := (sortedWeights_perm [p1, p2]).sum_eq
      rw [hsw] at hp
      simpa using hp
    have hl1 : 1 ≤ (cf p1.1).length := List.length_pos.2 (hcne p1.1 (by simp))
    have hl2 : 1 ≤ (cf p2.1).length := List.length_pos.2 (hcne p2.1 (by simp))
    rw [hvab, habsum]
    show p1.2 + p2.2 ≤ (List.map (fun p => p.2 * (cf p.1).length) [p1, p2]).sum
    simp only [List.map_cons, List.map_nil, List.sum_cons, List.sum_nil]
    nlinarith
  · -- at least three symbols
    have h3 : 3 ≤ items.length := by omega
    have hitems_ne : items ≠ [] := by
      intro h
      rw [h] at h3
      simp at h3
    -- a maximal-length code
    obtain ⟨z, hz, hmax⟩ := exists_max_entry items hitems_ne (fun c => (cf c).length)
    have hzkey : z.1 ∈ items.map Prod.fst := List.mem_map_of_mem Prod.fst hz
    have hL1 : 1 ≤ (cf z.1).length := List.length_pos.2 (hcne z.1 hzkey)
    have hL2 : 2 ≤ (cf z.1).length := by
      by_contra hc
      have hall1 : ∀ c ∈ items.map Prod.fst, (cf c).length = 1 := by
        intro c hcm
        obtain ⟨p0, hp0, hp0e⟩ := List.mem_map.1 hcm
        have hle := hmax p0 hp0
        rw [hp0e] at hle
        have hge : 1 ≤ (cf c).length := List.length_pos.2 (hcne c hcm)
        omega
      have hinj : ((items.map Prod.fst).map cf).Nodup := by
        apply List.Nodup.map_on
        · intro c1 h1 c2 h2 he
          by_contra hne12
          exact hpf c1 h1 c2 h2 hne12 (he ▸ List.prefix_refl _)
        · exact hnd
      have hsub : (items.map Prod.fst).map cf ⊆ [['0'], ['1']] := by
        intro x hx
        obtain ⟨c, hc, rfl⟩ := List.mem_map.1 hx
        rcases binary_singleton (cf c) (hall1 c hc) (hbin c hc) with h | h <;> simp [h]
      have hlen := (List.subperm_of_subset hinj hsub).length_le
      simp only [List.length_map] at hlen
      have h22 : ([['0'], ['1']] : List (List Char)).length = 2 := rfl
      rw [h22] at hlen
      omega
    -- decompose the sorted weights
    have hswlen : 3 ≤ (sortedWeights items).length := by
      rw [sortedWeights_length]
      exact h3
    obtain ⟨a, b, rest0, hsw⟩ : ∃ a b rest0, sortedWeights items = a :: b :: rest0 := by
      cases hs : sortedWeights items with
      | nil => rw [hs] at hswlen; simp at hswlen
      | cons a t =>
          cases t with
          | nil => rw [hs] at hswlen; simp at hswlen
          | cons b t2 => exact ⟨a, b, t2, rfl⟩
    have hsortedSW : List.Sorted (· ≤ ·) (a :: b :: rest0) := by
      rw [← hsw]
      exact sortedWeights_sorted items
    have hamin : ∀ x ∈ a :: b :: rest0, a ≤ x := by
      intro x hx
      rcases List.mem_cons.1 hx with rfl | hm
      · exact Nat.le_refl x
      · exact (List.sorted_cons.1 hsortedSW).1 x hm
    have hbmin : ∀ x ∈ b :: rest0, b ≤ x := by
      intro x hx
      rcases List.mem_cons.1 hx with rfl | hm
      · exact Nat.le_refl x
      · exact (List.sorted_cons.1 (List.sorted_cons.1 hsortedSW).2).1 x hm
    have hwperm : List.Perm (items.map Prod.snd) (a :: b :: rest0) := by
      rw [← hsw]
      exact (sortedWeights_perm items).symm
    -- choose the minimum-weight entry
    have hamem : a ∈ items.map Prod.snd := hwperm.mem_iff.2 (by simp)
    obtain ⟨px, hpx, hpxa⟩ := List.mem_map.1 hamem
    have hpx2 : (px.1, px.2) ∈ items := by rw [Prod.mk.eta]; exact hpx
    have hpermx := extract_one items hnd px.1 px.2 hpx2
    have hw1 : List.Perm ((removeKey items px.1).map Prod.snd) (b :: rest0) := by
      have hm1 := hpermx.map Prod.snd
      simp only [List.map_cons] at hm1
      have := (hm1.symm.trans hwperm)
      rw [hpxa] at this
      exact this.cons_inv
    -- choose the second-minimum entry
    have hbmem : b ∈ (removeKey items px.1).map Prod.snd := hw1.mem_iff.2 (by simp)
    obtain ⟨py, hpy, hpyb⟩ := List.mem_map.1 hbmem
    have hpyrem : py ∈ removeKey items px.1 := hpy
    have hpyitems : py ∈ items := ((mem_removeKey _ _ _).1 hpy).1
    have hcyx : py.1 ≠ px.1 := ((mem_removeKey _ _ _).1 hpy).2
    have hpy2 : (py.1, py.2) ∈ items := by rw [Prod.mk.eta]; exact hpyitems
    have hpxkey : px.1 ∈ items.map Prod.fst := List.mem_map_of_mem Prod.fst hpx
    have hpykey : py.1 ∈ items.map Prod.fst := List.mem_map_of_mem Prod.fst hpyitems
    -- the longest codeword and its sibling
    have hwne : cf z.1 ≠ [] := hcne z.1 hzkey
    have hw_eq : cf z.1 = (cf z.1).dropLast ++ [(cf z.1).getLast hwne] :=
      (List.dropLast_append_getLast hwne).symm
    have hwlastbin : (cf z.1).getLast hwne = '0' ∨ (cf z.1).getLast hwne = '1' :=
      hbin z.1 hzkey _ (List.getLast_mem hwne)
    have hp0len : ((cf z.1).dropLast).length + 1 = (cf z.1).length := by
      rw [List.length_dropLast]
      omega
    by_cases hsib : ∃ q ∈ items, q.1 ≠ z.1 ∧
        cf q.1 = (cf z.1).dropLast ++ [if (cf z.1).getLast hwne = '0' then '1' else '0']
    · -- sibling exists: swap the two minima next to each other and merge
      obtain ⟨q, hq, hqz, hqsib⟩ := hsib
      set p0 := (cf z.1).dropLast with hp0defm
      set sib := p0 ++ [if (cf z.1).getLast hwne = '0' then '1' else '0'] with hsibdef
      have hz2 : (z.1, z.2) ∈ items := by rw [Prod.mk.eta]; exact hz
      have hsiblen : sib.length = (cf z.1).length := by
        rw [hsibdef, List.length_append, List.length_singleton]
        exact hp0len
      have hmaxK : ∀ c ∈ items.map Prod.fst, (cf c).length ≤ (cf z.1).length := by
        intro c hc
        obtain ⟨pp, hpp, hppe⟩ := List.mem_map.1 hc
        have hle := hmax pp hpp
        rw [hppe] at hle
        exact hle
      -- first swap: put the minimum-weight symbol on the longest code
      set cf1 := swapCode cf px.1 z.1 with hcf1def
      have hc1le : costOf items cf1 ≤ costOf items cf := by
        by_cases hxz : px.1 = z.1
        · refine Nat.le_of_eq (costOf_others_congr items cf1 cf ?_)
          intro p _
          rw [hcf1def, hxz]
          exact swapCode_self cf z.1 p.1
        · have hz2mem : z.2 ∈ a :: b :: rest0 :=
            hwperm.mem_iff.1 (List.mem_map_of_mem Prod.snd hz)
          have hfle : px.2 ≤ z.2 := by
            rw [hpxa]
            exact hamin z.2 hz2mem
          exact swapCode_cost_le items hnd cf px.1 z.1 px.2 z.2 hpx2 hz2 hxz hfle (hmax px hpx)
      have hsum21 : (items.map (fun p => (cf1 p.1).length)).sum =
          (items.map (fun p => (cf p.1).length)).sum :=
        swapCode_costLen_eq items hnd cf px.1 z.1 px.2 z.2 hpx2 hz2
      -- locate the holder of the sibling codeword after the first swap
      have hph1ex : ∃ p ∈ items, p.1 ≠ px.1 ∧ cf1 p.1 = sib := by
        by_cases hqx : q.1 = px.1
        · refine ⟨(z.1, z.2), hz2, ?_, ?_⟩
          · intro he
            exact hqz (hqx.trans he.symm)
          · show swapCode cf px.1 z.1 z.1 = sib
            rw [swapCode_right, ← hqx]
            exact hqsib
        · refine ⟨q, hq, hqx, ?_⟩
          show swapCode cf px.1 z.1 q.1 = sib
          rw [swapCode_other cf px.1 z.1 q.1 hqx hqz]
          exact hqsib
      obtain ⟨ph1, hph1, hph1x, hph1sib⟩ := hph1ex
      have hph1pair : (ph1.1, ph1.2) ∈ items := by rw [Prod.mk.eta]; exact hph1
      have hph1key : ph1.1 ∈ items.map Prod.fst := List.mem_map_of_mem Prod.fst hph1
      have hmax1 : ∀ c ∈ items.map Prod.fst, (cf1 c).length ≤ (cf z.1).length :=
        swap_len_le (items.map Prod.fst) cf px.1 z.1 (cf z.1).length hpxkey hzkey hmaxK
      -- second swap: put the second minimum on the sibling codeword
      set cf2 := swapCode cf1 py.1 ph1.1 with hcf2def
      have hc2le : costOf items cf2 ≤ costOf items cf1 := by
        by_cases hyh : py.1 = ph1.1
        · refine Nat.le_of_eq (costOf_others_congr items cf2 cf1 ?_)
          intro p _
          rw [hcf2def, ← hyh]
          exact swapCode_self cf1 py.1 p.1
        · have hph1rem : ph1 ∈ removeKey items px.1 := (mem_removeKey _ _ _).2 ⟨hph1, hph1x⟩
          have hph1w : ph1.2 ∈ b :: rest0 :=
            hw1.mem_iff.1 (List.mem_map_of_mem Prod.snd hph1rem)
          have hfle2 : py.2 ≤ ph1.2 := by
            rw [hpyb]
            exact hbmin ph1.2 hph1w
          have hlle2 : (cf1 py.1).length ≤ (cf1 ph1.1).length := by
            rw [hph1sib, hsiblen]
            exact hmax1 py.1 hpykey
          exact swapCode_cost_le items hnd cf1 py.1 ph1.1 py.2 ph1.2 hpy2 hph1pair hyh hfle2 hlle2
      have hsum32 : (items.map (fun p => (cf2 p.1).length)).sum =
          (items.map (fun p => (cf1 p.1).length)).sum :=
        swapCode_costLen_eq items hnd cf1 py.1 ph1.1 py.2 ph1.2 hpy2 hph1pair
      have hcf2x : cf2 px.1 = cf z.1 := by
        rw [hcf2def, swapCode_other cf1 py.1 ph1.1 px.1 (Ne.symm hcyx) (Ne.symm hph1x),
          hcf1def, swapCode_left]
      have hcf2y : cf2 py.1 = sib := by
        rw [hcf2def, swapCode_left]
        exact hph1sib
      have hbin2sw : ∀ c ∈ items.map Prod.fst, ∀ bb ∈ cf2 c, bb = '0' ∨ bb = '1' :=
        swap_bin (items.map Prod.fst) cf1 py.1 ph1.1 hpykey hph1key
          (swap_bin (items.map Prod.fst) cf px.1 z.1 hpxkey hzkey hbin)
      have hpf2sw : ∀ c1 ∈ items.map Prod.fst, ∀ c2 ∈ items.map Prod.fst, c1 ≠ c2 →
          ¬ (cf2 c1 <+: cf2 c2) :=
        swap_pf (items.map Prod.fst) cf1 py.1 ph1.1 hpykey hph1key
          (swap_pf (items.map Prod.fst) cf px.1 z.1 hpxkey hzkey hpf)
      have hne2sw : ∀ c ∈ items.map Prod.fst, cf2 c ≠ [] :=
        swap_ne (items.map Prod.fst) cf1 py.1 ph1.1 hpykey hph1key
          (swap_ne (items.map Prod.fst) cf px.1 z.1 hpxkey hzkey hcne)
      have hmax2 : ∀ c ∈ items.map Prod.fst, (cf2 c).length ≤ (cf z.1).length :=
        swap_len_le (items.map Prod.fst) cf1 py.1 ph1.1 (cf z.1).length hpykey hph1key hmax1
      -- merge the two minima into one pseudo-symbol
      set rr := removeKey (removeKey items px.1) py.1 with hrrdef
      have hpermxy : List.Perm items ((px.1, px.2) :: (py.1, py.2) :: rr) :=
        extract_two items hnd px.1 py.1 px.2 py.2 hpx2 hpy2 (Ne.symm hcyx)
      have hrrne : ∀ p ∈ rr, p.1 ≠ px.1 := by
        intro p hp
        have hp1 : p ∈ removeKey items px.1 :=
          ((mem_removeKey (removeKey items px.1) py.1 p).1 hp).1
        exact ((mem_removeKey items px.1 p).1 hp1).2
      have hkeyrr : ∀ c ∈ rr.map Prod.fst,
          c ∈ items.map Prod.fst ∧ c ≠ px.1 ∧ c ≠ py.1 := by
        intro c hc
        have h1 : c ∈ (removeKey items px.1).map Prod.fst :=
          removeKey_keys_sub (removeKey items px.1) py.1 hc
        refine ⟨removeKey_keys_sub items px.1 h1, ?_, ?_⟩
        · intro he
          rw [he] at h1
          exact not_mem_removeKey_keys items px.1 h1
        · intro he
          rw [he] at hc
          exact not_mem_removeKey_keys (removeKey items px.1) py.1 hc
      set items2 := (px.1, px.2 + py.2) :: rr with hitems2def
      set cf3 := fun c => if c = px.1 then p0 else cf2 c with hcf3def
      have hcf3x : cf3 px.1 = p0 := by simp [hcf3def]
      have hcf3o : ∀ c, c ≠ px.1 → cf3 c = cf2 c := fun c hc => by simp [hcf3def, hc]
      have hkeymem : ∀ c ∈ items2.map Prod.fst, c = px.1 ∨ c ∈ rr.map Prod.fst := by
        intro c hc
        rw [hitems2def] at hc
        simp only [List.map_cons, List.mem_cons] at hc
        exact hc
      -- the merged instance satisfies all side conditions of the induction
      have hnd2 : (items2.map Prod.fst).Nodup := by
        rw [hitems2def]
        simp only [List.map_cons]
        refine List.nodup_cons.2 ⟨fun hmem => ?_,
          removeKey_keys_nodup _ py.1 (removeKey_keys_nodup items px.1 hnd)⟩
        exact (hkeyrr px.1 hmem).2.1 rfl
      have hlen2 : items2.length + 1 = items.length := by
        have hl := hpermxy.length_eq
        rw [hitems2def]
        simp only [List.length_cons] at hl ⊢
        omega
      have h2' : 2 ≤ items2.length := by omega
      have hbin3 : ∀ c ∈ items2.map Prod.fst, ∀ bb ∈ cf3 c, bb = '0' ∨ bb = '1' := by
        intro c hc bb hbb
        rcases hkeymem c hc with hcx | hcrr
        · rw [hcx, hcf3x] at hbb
          exact hbin z.1 hzkey bb ((List.dropLast_prefix (cf z.1)).subset hbb)
        · obtain ⟨hcK, hcpx, _⟩ := hkeyrr c hcrr
          rw [hcf3o c hcpx] at hbb
          exact hbin2sw c hcK bb hbb
      have hcne3 : ∀ c ∈ items2.map Prod.fst, cf3 c ≠ [] := by
        intro c hc
        rcases hkeymem c hc with hcx | hcrr
        · rw [hcx, hcf3x]
          intro he
          have h0 := congrArg List.length he
          simp only [List.length_nil] at h0
          omega
        · obtain ⟨hcK, hcpx, _⟩ := hkeyrr c hcrr
          rw [hcf3o c hcpx]
          exact hne2sw c hcK
      have hpf3 : ∀ c1 ∈ items2.map Prod.fst, ∀ c2 ∈ items2.map Prod.fst, c1 ≠ c2 →
          ¬ (cf3 c1 <+: cf3 c2) := by
        intro c1 hc1 c2 hc2 hne12 hpre
        rcases hkeymem c1 hc1 with h1x | h1rr
        · rcases hkeymem c2 hc2 with h2x | h2rr
          · exact hne12 (h1x.trans h2x.symm)
          · obtain ⟨h2K, h2px, h2py⟩ := hkeyrr c2 h2rr
            rw [h1x, hcf3x, hcf3o c2 h2px] at hpre
            have hlenle : (cf2 c2).length ≤ (cf z.1).length := hmax2 c2 h2K
            rcases extend_code_cases (cf z.1) p0 ((cf z.1).getLast hwne) hw_eq (cf2 c2)
                (hbin2sw c2 h2K) hwlastbin hpre hlenle with hcc | hcc | hcc
            · refine hpf2sw c2 h2K px.1 hpxkey h2px ?_
              rw [hcc, hcf2x]
              exact List.dropLast_prefix _
            · refine hpf2sw c2 h2K px.1 hpxkey h2px ?_
              rw [hcc, hcf2x]
            · refine hpf2sw c2 h2K py.1 hpykey h2py ?_
              rw [hcc, hcf2y]
        · rcases hkeymem c2 hc2 with h2x | h2rr
          · obtain ⟨h1K, h1px, _⟩ := hkeyrr c1 h1rr
            rw [h2x, hcf3x, hcf3o c1 h1px] at hpre
            refine hpf2sw c1 h1K px.1 hpxkey h1px ?_
            rw [hcf2x]
            exact hpre.trans (List.dropLast_prefix _)
          · obtain ⟨h1K, h1px, _⟩ := hkeyrr c1 h1rr
            obtain ⟨h2K, h2px, _⟩ := hkeyrr c2 h2rr
            rw [hcf3o c1 h1px, hcf3o c2 h2px] at hpre
            exact hpf2sw c1 h1K c2 h2K hne12 hpre
      -- code-length bookkeeping for the measure
      have hmap_rr3 : (rr.map (fun p => (cf3 p.1).length)).sum =
          (rr.map (fun p => (cf2 p.1).length)).sum := by
        congr 1
        apply List.map_congr_left
        intro p hp
        rw [hcf3o p.1 (hrrne p hp)]
      have hs2 : (items2.map (fun p => (cf3 p.1).length)).sum =
          p0.length + (rr.map (fun p => (cf2 p.1).length)).sum := by
        rw [hitems2def]
        simp only [List.map_cons, List.sum_cons]
        rw [hcf3x, hmap_rr3]
      have hsI : (items.map (fun p => (cf2 p.1).length)).sum =
          (cf z.1).length + ((cf z.1).length + (rr.map (fun p => (cf2 p.1).length)).sum) := by
        rw [(hpermxy.map (fun p => (cf2 p.1).length)).sum_eq]
        simp only [List.map_cons, List.sum_cons]
        rw [hcf2x, hcf2y, hsiblen]
      have hmu2lt : items2.length + (items2.map (fun p => (cf3 p.1).length)).sum < mu := by
        rw [hs2]
        omega
      have hIH := ih _ hmu2lt items2 cf3 rfl hnd2 h2' hbin3 hpf3 hcne3
      -- sorted weights of the merged instance
      have hpyrem' : (py.1, py.2) ∈ removeKey items px.1 := by
        rw [Prod.mk.eta]
        exact hpyrem
      have hpy_split : List.Perm (removeKey items px.1) ((py.1, py.2) :: rr) :=
        extract_one (removeKey items px.1) (removeKey_keys_nodup items px.1 hnd) py.1 py.2 hpyrem'
      have hrrw : List.Perm (rr.map Prod.snd) rest0 := by
        have hmsnd := hpy_split.map Prod.snd
        simp only [List.map_cons] at hmsnd
        have htr := hmsnd.symm.trans hw1
        rw [hpyb] at htr
        exact htr.cons_inv
      have hrest0sorted : List.Sorted (· ≤ ·) rest0 :=
        (List.sorted_cons.1 (List.sorted_cons.1 hsortedSW).2).2
      have hsw2 : sortedWeights items2 = List.orderedInsert (· ≤ ·) (a + b) rest0 := by
        refine List.eq_of_perm_of_sorted ?_ (sortedWeights_sorted items2)
          (List.Sorted.orderedInsert (a + b) rest0 hrest0sorted)
        refine (sortedWeights_perm items2).trans ?_
        rw [hitems2def]
        simp only [List.map_cons]
        rw [hpxa, hpyb]
        exact (hrrw.cons (a + b)).trans (List.perm_orderedInsert (· ≤ ·) (a + b) rest0).symm
      -- cost bookkeeping
      have hmap_rrC : (rr.map (fun p => p.2 * (cf3 p.1).length)).sum =
          (rr.map (fun p => p.2 * (cf2 p.1).length)).sum := by
        congr 1
        apply List.map_congr_left
        intro p hp
        rw [hcf3o p.1 (hrrne p hp)]
      have hcost2 : costOf items2 cf3 =
          (px.2 + py.2) * p0.length + (rr.map (fun p => p.2 * (cf2 p.1).length)).sum := by
        rw [hitems2def]
        simp only [costOf, List.map_cons, List.sum_cons]
        rw [hcf3x, hmap_rrC]
      have hcostI : costOf items cf2 =
          px.2 * (cf z.1).length +
            (py.2 * (cf z.1).length + (rr.map (fun p => p.2 * (cf2 p.1).length)).sum) := by
        rw [costOf_perm _ _ hpermxy cf2]
        simp only [costOf, List.map_cons, List.sum_cons]
        rw [hcf2x, hcf2y, hsiblen]
      have hmul1 : (a + b) * p0.length + (a + b) = (a + b) * (cf z.1).length := by
        have hms : (a + b) * (p0.length + 1) = (a + b) * p0.length + (a + b) := by ring
        rw [hp0len] at hms
        omega
      have hmul2 : (a + b) * (cf z.1).length = a * (cf z.1).length + b * (cf z.1).length :=
        Nat.add_mul a b ((cf z.1).length)
      have hcost_id : costOf items2 cf3 + (a + b) = costOf items cf2 := by
        rw [hcost2, hcostI, hpxa, hpyb]
        omega
      -- assemble
      rw [hsw, hv_cons2, ← hsw2]
      have hchain : costOf items2 cf3 + (a + b) ≤ costOf items cf := by
        rw [hcost_id]
        exact hc2le.trans hc1le
      omega
    · -- no sibling: the longest codeword can be shortened
      set p0 := (cf z.1).dropLast with hp0def
      set cf2 := fun c => if c = z.1 then p0 else cf c with hcf2
      have hcf2z : cf2 z.1 = p0 := by simp [hcf2]
      have hcf2o : ∀ c, c ≠ z.1 → cf2 c = cf c := fun c hc => by simp [hcf2, hc]
      have hbin2 : ∀ c ∈ items.map Prod.fst, ∀ bb ∈ cf2 c, bb = '0' ∨ bb = '1' := by
        intro c hc bb hbb
        by_cases hcz : c = z.1
        · subst hcz
          rw [hcf2z] at hbb
          exact hbin z.1 hc bb ((List.dropLast_prefix (cf z.1)).subset hbb)
        · rw [hcf2o c hcz] at hbb
          exact hbin c hc bb hbb
      have hcne2 : ∀ c ∈ items.map Prod.fst, cf2 c ≠ [] := by
        intro c hc
        by_cases hcz : c = z.1
        · subst hcz
          rw [hcf2z]
          intro he
          have hlen0 := congrArg List.length he
          rw [show (p0 : List Char).length = (cf z.1).length - 1 from by
            rw [hp0def, List.length_dropLast]] at hlen0
          simp at hlen0
          omega
        · rw [hcf2o c hcz]
          exact hcne c hc
      have hpf2 : ∀ c1 ∈ items.map Prod.fst, ∀ c2 ∈ items.map Prod.fst, c1 ≠ c2 →
          ¬ (cf2 c1 <+: cf2 c2) := by
        intro c1 hm1 c2 hm2 hne12 hpre
        by_cases hc1z : c1 = z.1
        · subst hc1z
          rw [hcf2z, hcf2o c2 (Ne.symm hne12)] at hpre
          have hlenle : (cf c2).length ≤ (cf z.1).length := by
            obtain ⟨pp, hpp, hppe⟩ := List.mem_map.1 hm2
            have hle := hmax pp hpp
            rw [hppe] at hle
            exact hle
          rcases extend_code_cases (cf z.1) p0 ((cf z.1).getLast hwne) hw_eq (cf c2)
              (hbin c2 hm2) hwlastbin hpre hlenle with hcase | hcase | hcase
          · exact hpf c2 hm2 z.1 hzkey (Ne.symm hne12)
              (by rw [hcase]; exact List.dropLast_prefix _)
          · exact hpf c2 hm2 z.1 hzkey (Ne.symm hne12) (by rw [hcase])
          · obtain ⟨pp, hpp, hppe⟩ := List.mem_map.1 hm2
            exact hsib ⟨pp, hpp, by rw [hppe]; exact Ne.symm hne12,
              by rw [hppe]; exact hcase⟩
        · by_cases hc2z : c2 = z.1
          · subst hc2z
            rw [hcf2o c1 hc1z, hcf2z] at hpre
            exact hpf c1 hm1 z.1 hzkey hne12 (hpre.trans (List.dropLast_prefix _))
          · rw [hcf2o c1 hc1z, hcf2o c2 hc2z] at hpre
            exact hpf c1 hm1 c2 hm2 hne12 hpre
      have hzsplit := extract_one items hnd z.1 z.2 (by rw [Prod.mk.eta]; exact hz)
      have hkeyothers : ∀ p ∈ removeKey items z.1, p.1 ≠ z.1 :=
        fun p hp => ((mem_removeKey _ _ _).1 hp).2
      have hmapo : ((removeKey items z.1).map (fun p => (cf2 p.1).length)).sum =
          ((removeKey items z.1).map (fun p => (cf p.1).length)).sum := by
        congr 1
        apply List.map_congr_left
        intro p hp
        rw [hcf2o p.1 (hkeyothers p hp)]
      have hlen_eq : (items.map (fun p => (cf2 p.1).length)).sum + 1 =
          (items.map (fun p => (cf p.1).length)).sum := by
        rw [(hzsplit.map (fun p => (cf2 p.1).length)).sum_eq,
          (hzsplit.map (fun p => (cf p.1).length)).sum_eq]
        simp only [List.map_cons, List.sum_cons]
        rw [hmapo, hcf2z]
        have hl : p0.length + 1 = (cf z.1).length := by
          rw [hp0def, List.length_dropLast]
          omega
        omega
      have hcosto : ((removeKey items z.1).map (fun p => p.2 * (cf2 p.1).length)).sum =
          ((removeKey items z.1).map (fun p => p.2 * (cf p.1).length)).sum := by
        congr 1
        apply List.map_congr_left
        intro p hp
        rw [hcf2o p.1 (hkeyothers p hp)]
      have hcost_le : costOf items cf2 ≤ costOf items cf := by
        rw [costOf_perm _ _ hzsplit cf2, costOf_perm _ _ hzsplit cf]
        simp only [costOf, List.map_cons, List.sum_cons]
        rw [hcosto, hcf2z]
        have hmul : z.2 * p0.length ≤ z.2 * (cf z.1).length :=
          Nat.mul_le_mul_left _ (by rw [hp0def, List.length_dropLast]; omega)
        omega
      have hmu2 : items.length + (items.map (fun p => (cf2 p.1).length)).sum < mu := by
        omega
      have hIH := ih _ hmu2 items cf2 rfl hnd h2 hbin2 hpf2 hcne2
      exact hIH.trans hcost_le

/-! ### Optimality of the generated code -/

theorem leafEntries_length_pos (t : Node) (hwf : WF t) : 1 ≤ (leafEntries t).length := by
  induction hwf with
  | leaf c f => simp [leafEntries]
  | node l r hl hr ihl ihr =>
      rw [leafEntries_merge, List.length_append]
      omega

theorem sum_ge_length (l : List Char) (g : Char → Nat) (h : ∀ x ∈ l, 1 ≤ g x) :
    l.length ≤ (l.map g).sum := by
  induction l with
  | nil => simp
  | cons c cs ih =>
      simp only [List.length_cons, List.map_cons, List.sum_cons]
      have h1 := h c (by simp)
      have h2 := ih (fun x hx => h x (by simp [hx]))
      omega

/-- C3: for every non-empty input text, the encoded bit string produced
by the pipeline (`build_frequency_table` → `build_huffman_tree` →
`generate_codes` → `encode_text` of `HuffmanAlgorithm.py`) is no longer
than the total bit length of the same text under any other valid prefix
code for the same frequency distribution: any assignment of non-empty,
prefix-free binary codewords to the text's symbols. -/
theorem huffman_optimal (text : String) (htext : text ≠ "")
    (t : Node) (codes : Codes) (encoded : String)
    (hb : Huffman1.build_huffman_tree (Huffman1.build_frequency_table text) = Except.ok t)
    (hg : Huffman1.generate_codes (some t) "" none = Except.ok codes)
    (he : Huffman1.encode_text text codes = Except.ok encoded)
    (code : Char → List Char)
    (hcbin : ∀ c ∈ text.data, ∀ b ∈ code c, b = '0' ∨ b = '1')
    (hcpf : ∀ c1 ∈ text.data, ∀ c2 ∈ text.data, c1 ≠ c2 → ¬ (code c1 <+: code c2))
    (hcne : ∀ c ∈ text.data, code c ≠ []) :
    encoded.length ≤ (text.data.map (fun c => (code c).length)).sum := by
  obtain ⟨t0, hb0, hwf, hperm, hnodup, hgen, hmem⟩ := pipeline_spec text htext
  have ht : t0 = t := by
    rw [hb0] at hb
    injection hb
  subst ht
  have hcodes : pathsAux t0 "" = codes := by
    rw [hgen] at hg
    injection hg
  subst hcodes
  cases hwf with
  | leaf c0 f0 =>
      have hchars : ∀ c ∈ text.data, c = c0 := by
        intro c hc
        have := hmem c hc
        simpa [leafChars, leafEntries] using this
      have hpa : pathsAux (Node.mk (some c0) f0 none none) "" = [(some c0, "0")] := by
        simp [pathsAux]
      have hget : ∀ c ∈ text.data,
          dictGet (pathsAux (Node.mk (some c0) f0 none none) "") (some c) = some "0" := by
        intro c hc
        rw [hchars c hc, hpa]
        simp [dictGet]
      have haux : ∀ cs : List Char,
          (∀ c ∈ cs, dictGet (pathsAux (Node.mk (some c0) f0 none none) "") (some c) = some "0") →
          cs.flatMap (fun c =>
            ((dictGet (pathsAux (Node.mk (some c0) f0 none none) "") (some c)).getD "").data) =
          List.replicate cs.length '0' := by
        intro cs
        induction cs with
        | nil => intro _; rfl
        | cons c cs ih =>
            intro hall
            rw [List.flatMap_cons, hall c (by simp), ih (fun c2 h2 => hall c2 (by simp [h2]))]
            simp [List.replicate_succ]
      have henc : Huffman1.encode_text text (pathsAux (Node.mk (some c0) f0 none none) "") =
          Except.ok (String.mk (List.replicate text.data.length '0')) := by
        have h1 : Huffman1.encode_text text (pathsAux (Node.mk (some c0) f0 none none) "") =
            Except.ok (String.mk ("".data ++ text.data.flatMap (fun c =>
              ((dictGet (pathsAux (Node.mk (some c0) f0 none none) "") (some c)).getD "").data))) :=
          enc_fold_ok (pathsAux (Node.mk (some c0) f0 none none) "") text.data ""
            (fun c hc => ⟨"0", hget c hc⟩)
        rw [h1]
        congr 1
        rw [show ("".data : List Char) = [] from rfl, List.nil_append, haux text.data hget]
      have hed : String.mk (List.replicate text.data.length '0') = encoded := by
        rw [henc] at he
        injection he
      subst hed
      rw [show (String.mk (List.replicate text.data.length '0')).length =
        (List.replicate text.data.length '0').length from rfl, List.length_replicate]
      exact sum_ge_length text.data (fun c => (code c).length)
        (fun x hx => List.length_pos.2 (hcne x hx))
  | node l r hl hr =>
      have hwf2 : WF (Node.mk none (l.freq + r.freq) (some l) (some r)) := WF.node l r hl hr
      have hfindget : ∀ c ∈ text.data,
          dictGet (pathsAux (Node.mk none (l.freq + r.freq) (some l) (some r)) "") (some c) =
            some (String.mk ((findCode (Node.mk none (l.freq + r.freq) (some l) (some r)) c).getD [])) := by
        intro c hc
        obtain ⟨p, hp⟩ := findCode_isSome _ hwf2 c (hmem c hc)
        rw [paths_get_root _ hwf2 _ l r rfl c p hp, hp]
        rfl
      have henc : Huffman1.encode_text text
          (pathsAux (Node.mk none (l.freq + r.freq) (some l) (some r)) "") =
          Except.ok (String.mk (text.data.flatMap (fun c =>
            (findCode (Node.mk none (l.freq + r.freq) (some l) (some r)) c).getD []))) := by
        have h1 : Huffman1.encode_text text
            (pathsAux (Node.mk none (l.freq + r.freq) (some l) (some r)) "") =
            Except.ok (String.mk ("".data ++ text.data.flatMap (fun c =>
              ((dictGet (pathsAux (Node.mk none (l.freq + r.freq) (some l) (some r)) "")
                (some c)).getD "").data))) :=
          enc_fold_ok _ text.data "" (fun c hc => ⟨_, hfindget c hc⟩)
        rw [h1]
        congr 1
        rw [show ("".data : List Char) = [] from rfl, List.nil_append]
        congr 1
        apply flatMap_congr_mem
        intro c hc
        rw [hfindget c hc]
        rfl
      have hed : String.mk (text.data.flatMap (fun c =>
          (findCode (Node.mk none (l.freq + r.freq) (some l) (some r)) c).getD [])) = encoded := by
        rw [henc] at he
        injection he
      subst hed
      set T := Node.mk none (l.freq + r.freq) (some l) (some r) with hTdef
      have hlen : (String.mk (text.data.flatMap (fun c => (findCode T c).getD []))).length =
          (text.data.map (fun c => ((findCode T c).getD []).length)).sum := by
        rw [show (String.mk (text.data.flatMap (fun c => (findCode T c).getD []))).length =
          (text.data.flatMap (fun c => (findCode T c).getD [])).length from rfl]
        exact List.length_flatMap _ _
      rw [hlen]
      have hbc : Huffman1.build_huffman_tree (counter text) = Except.ok T := hb0
      have hLHS : (text.data.map (fun c => ((findCode T c).getD []).length)).sum =
          hv (sortedWeights (counter text)) := by
        rw [← counter_sum (fun c => ((findCode T c).getD []).length) text]
        rw [← (hperm.map (fun p => p.2 * ((findCode T p.1).getD []).length)).sum_eq]
        rw [leaf_depth_cost T hwf2 hnodup]
        exact build_cost (counter text) (counter_ne_nil text htext) T hbc
      have hRHS : (text.data.map (fun c => (code c).length)).sum =
          costOf (counter text) code := by
        rw [show costOf (counter text) code =
          ((counter text).map (fun p => p.2 * (code p.1).length)).sum from rfl]
        rw [counter_sum (fun c => (code c).length) text]
      have hTentries : leafEntries T = leafEntries l ++ leafEntries r :=
        leafEntries_merge l r (l.freq + r.freq)
      have h2 : 2 ≤ (counter text).length := by
        have h1 := hperm.length_eq
        rw [hTentries, List.length_append] at h1
        have hll := leafEntries_length_pos l hl
        have hrr := leafEntries_length_pos r hr
        omega
      have hbinK : ∀ c ∈ (counter text).map Prod.fst, ∀ b ∈ code c, b = '0' ∨ b = '1' :=
        fun c hc => hcbin c ((mem_counter_keys text c).1 hc)
      have hpfK : ∀ c1 ∈ (counter text).map Prod.fst, ∀ c2 ∈ (counter text).map Prod.fst,
          c1 ≠ c2 → ¬ (code c1 <+: code c2) :=
        fun c1 h1 c2 h2 => hcpf c1 ((mem_counter_keys text c1).1 h1)
          c2 ((mem_counter_keys text c2).1 h2)
      have hneK : ∀ c ∈ (counter text).map Prod.fst, code c ≠ [] :=
        fun c hc => hcne c ((mem_counter_keys text c).1 hc)
      have hlb := lb_huffman ((counter text).length +
          ((counter text).map (fun p => (code p.1).length)).sum) (counter text) code rfl
          (counter_keys_nodup text) h2 hbinK hpfK hneK
      rw [hLHS, hRHS]
      exact hlb

/-- Witness for C3 at the concrete input `"ab"`, against the competing
prefix code `a ↦ "0"`, `b ↦ "10"` (total length 3 ≥ encoded length 2). -/
theorem huffman_optimal_witness :
    ("ab" : String) ≠ "" ∧
    ("01" : String).length ≤ (("ab" : String).data.map (fun c =>
      ((fun c => if c = 'a' then ['0'] else ['1', '0']) c).length)).sum :=
  ⟨by decide, huffman_optimal "ab" (by decide)
    (Node.mk none 2 (some (Node.mk (some 'a') 1 none none))
      (some (Node.mk (some 'b') 1 none none)))
    [(some 'a', "0"), (some 'b', "1")] "01"
    (by rw [show Huffman1.build_frequency_table "ab" = [('a', 1), ('b', 1)] from by decide]
        simp [Huffman1.build_huffman_tree, heapify, Huffman1.build_huffman_tree_loop,
          heappush, List.insertionSort, List.orderedInsert, nodeLE, Node.freq])
    rfl rfl
    (fun c => if c = 'a' then ['0'] else ['1', '0'])
    (by decide) (by decide) (by decide)⟩
